import Mathlib

/-!
Verification of the chunk-visualization core of the `ck` semantic code-search
tool (`ck-tui/src/chunks.rs`): the sweep-line chunk-depth assignment engine,
the per-line display-model builder with its rail tracker, and the metadata
adapter.  The Rust code is shallowly embedded: machine integers (`usize`)
become `Nat` (all arithmetic in the source is bounded and non-wrapping:
`saturating_sub` is `Nat` truncated subtraction), `Option<T>` becomes
`Option`, `Vec<T>` becomes `List`, the `HashMap` depth map becomes an
association list with replace-on-insert semantics, and Rust's stable
`sort_by_key` becomes a stable insertion sort over the same key order.
Strings are handled at the character-list level (`String.data`), so that the
embedding stays kernel-executable.
-/

namespace Ck

/-- Inclusive, 1-indexed line span (`ck_core::Span` as used by the TUI). -/
structure Span where
  line_start : Nat
  line_end : Nat
deriving DecidableEq

/-- `IndexedChunkMeta` from `ck-tui/src/chunks.rs`. -/
structure IndexedChunkMeta where
  span : Span
  chunk_type : Option String
  breadcrumb : Option String
  ancestry : List String
  estimated_tokens : Option Nat
  byte_length : Option Nat
  leading_trivia : Option (List String)
  trailing_trivia : Option (List String)
deriving DecidableEq

/-- `ChunkColumnChar`: one rail column cell. -/
structure ChunkColumnChar where
  ch : Char
  is_match : Bool
deriving DecidableEq

/-- `ChunkDisplayLine`: the three display-line variants.  The Rust `Label`
field `prefix` is called `indent` here (`prefix` is reserved in Lean). -/
inductive ChunkDisplayLine where
  | Label (indent : Nat) (text : String)
  | Content (columns : List ChunkColumnChar) (line_num : Nat) (text : String)
      (is_match_line : Bool) (in_matched_chunk : Bool) (has_any_chunk : Bool)
  | Message (text : String)
deriving DecidableEq

/-- Stable insertion of `a` into `l`: `a` goes in front of the first element
`b` with `le a b`.  For a total preorder `le` this realizes the same stable
ascending order as Rust's stable `sort_by_key`. -/
def insertLe (le : α → α → Bool) (a : α) : List α → List α
  | [] => [a]
  | b :: l => if le a b then a :: b :: l else b :: insertLe le a l

/-- Stable insertion sort (model of Rust's stable `sort_by_key`). -/
def insertionSort (le : α → α → Bool) : List α → List α
  | [] => []
  | a :: l => insertLe le a (insertionSort le l)

/-- Sort key of `calculate_chunk_depths`: ascending `line_start`, ties by
descending `line_end` (`(meta.span.line_start, Reverse(meta.span.line_end))`). -/
def chunkSortLE (a b : IndexedChunkMeta) : Bool :=
  decide (a.span.line_start < b.span.line_start) ||
    (a.span.line_start == b.span.line_start &&
      decide (b.span.line_end ≤ a.span.line_end))

def sortChunks (cs : List IndexedChunkMeta) : List IndexedChunkMeta :=
  insertionSort chunkSortLE cs

/-- The sweep loop of `calculate_chunk_depths`: for each chunk in sorted
order, retain stack entries `(start, end, depth)` whose `end` is strictly
greater than the chunk's `start`, record the depth (= retained stack size),
and push.  Returns the sequence of `HashMap::insert` calls in order. -/
def sweepInsertions : List IndexedChunkMeta → List (Nat × Nat × Nat) →
    List ((Nat × Nat) × Nat)
  | [], _ => []
  | m :: rest, stack =>
    let s := m.span.line_start
    let e := m.span.line_end
    let stack2 := stack.filter (fun t => decide (s < t.2.1))
    ((s, e), stack2.length) ::
      sweepInsertions rest (stack2 ++ [(s, e, stack2.length)])

def depthInsertions (cs : List IndexedChunkMeta) : List ((Nat × Nat) × Nat) :=
  sweepInsertions (sortChunks cs) []

/-- `HashMap::insert`: replace any existing entry for the key. -/
def mapInsert (m : List ((Nat × Nat) × Nat)) (k : Nat × Nat) (v : Nat) :
    List ((Nat × Nat) × Nat) :=
  m.filter (fun p => !(p.1 == k)) ++ [(k, v)]

/-- `calculate_chunk_depths`: the depth map materialized from the insertion
sequence. -/
def calculate_chunk_depths (cs : List IndexedChunkMeta) :
    List ((Nat × Nat) × Nat) :=
  (depthInsertions cs).foldl (fun m p => mapInsert m p.1 p.2) []

/-- `HashMap::get` on the depth map. -/
def depthGet (m : List ((Nat × Nat) × Nat)) (k : Nat × Nat) : Option Nat :=
  (m.find? (fun p => p.1 == k)).map (·.2)

/-- `calculate_max_depth`: `depth_map.values().max().unwrap_or(0) + 1`
(for `Nat` values, `values().max().unwrap_or(0)` is `foldr max 0`). -/
def calculate_max_depth (cs : List IndexedChunkMeta) : Nat :=
  ((calculate_chunk_depths cs).map (·.2)).foldr max 0 + 1

/-- Structural chunks: `chunk_type.as_deref().map(|t| t != "text").unwrap_or(true)`. -/
def structuralChunks (all_chunks : List IndexedChunkMeta) : List IndexedChunkMeta :=
  all_chunks.filter (fun m =>
    match m.chunk_type with
    | some t => t != "text"
    | none => true)

/-- Text chunks: `chunk_type.as_deref().map(|t| t == "text").unwrap_or(false)`. -/
def textChunks (all_chunks : List IndexedChunkMeta) : List IndexedChunkMeta :=
  all_chunks.filter (fun m =>
    match m.chunk_type with
    | some t => t == "text"
    | none => false)

/-- The `if let Some(&depth) = depth_map.get(..) && depth < max_depth
{ depth_slots[depth] = Some(meta) }` step shared by pre-population and
per-line activation. -/
def slotPlace (maxd : Nat) (slots : List (Option IndexedChunkMeta))
    (m : IndexedChunkMeta) : Option Nat → List (Option IndexedChunkMeta)
  | some d => if d < maxd then slots.set d (some m) else slots
  | none => slots

def slotInsert (dm : List ((Nat × Nat) × Nat)) (maxd : Nat)
    (slots : List (Option IndexedChunkMeta)) (m : IndexedChunkMeta) :
    List (Option IndexedChunkMeta) :=
  slotPlace maxd slots m (depthGet dm (m.span.line_start, m.span.line_end))

/-- Pre-population: structural chunks that start strictly before the visible
window but are still open at its first line are inserted into their slots. -/
def prepopulate (structural : List IndexedChunkMeta)
    (dm : List ((Nat × Nat) × Nat)) (maxd first_line : Nat)
    (slots : List (Option IndexedChunkMeta)) : List (Option IndexedChunkMeta) :=
  structural.foldl (fun sl m =>
    if decide (m.span.line_start < first_line) &&
        decide (first_line ≤ m.span.line_end) then
      slotInsert dm maxd sl m
    else sl) slots

/-- Sort key used inside each `start_map` group: descending
`line_end.saturating_sub(line_start)` (longest first), stable. -/
def lenDescLE (a b : IndexedChunkMeta) : Bool :=
  decide (b.span.line_end - b.span.line_start ≤
    a.span.line_end - a.span.line_start)

/-- The `start_map` lookup for line `n`: chunks of `source_chunks` with
`line_start >= first_line` grouped by `line_start`, each group sorted by
length descending.  (The `BTreeMap` is consumed once per strictly increasing
line number, so it is equivalent to this pure per-line lookup.) -/
def startsAt (source_chunks : List IndexedChunkMeta) (first_line n : Nat) :
    List IndexedChunkMeta :=
  insertionSort lenDescLE
    (source_chunks.filter (fun m =>
      decide (first_line ≤ m.span.line_start) && m.span.line_start == n))

/-- Expire step: clear slots whose occupant ended before the current line. -/
def expireSlot (n : Nat) : Option IndexedChunkMeta → Option IndexedChunkMeta
  | some m => if decide (m.span.line_end < n) then none else some m
  | none => none

def expireBefore (n : Nat) (slots : List (Option IndexedChunkMeta)) :
    List (Option IndexedChunkMeta) :=
  slots.map (expireSlot n)

/-- Activate step: place chunks starting at line `n` into their depth slots. -/
def activateAt (dm : List ((Nat × Nat) × Nat)) (maxd n : Nat)
    (source_chunks : List IndexedChunkMeta) (first_line : Nat)
    (slots : List (Option IndexedChunkMeta)) : List (Option IndexedChunkMeta) :=
  (startsAt source_chunks first_line n).foldl (slotInsert dm maxd) slots

/-- Post-expire step: clear slots whose occupant ends exactly at this line
(after its closing symbol has been rendered). -/
def postExpireSlot (n : Nat) : Option IndexedChunkMeta → Option IndexedChunkMeta
  | some m => if m.span.line_end == n then none else some m
  | none => none

def postExpire (n : Nat) (slots : List (Option IndexedChunkMeta)) :
    List (Option IndexedChunkMeta) :=
  slots.map (postExpireSlot n)

/-- Label text: `format!("{} {}{}", chunk_kind, breadcrumb_text, token_hint)`. -/
def labelText (m : IndexedChunkMeta) : String :=
  let chunk_kind := m.chunk_type.getD "chunk"
  let ancestry_text :=
    if m.ancestry.isEmpty then ""
    else " (" ++ String.intercalate "::" m.ancestry ++ ")"
  let breadcrumb_text :=
    match m.breadcrumb with
    | some crumb => if crumb != "" then " (" ++ crumb ++ ")" else ancestry_text
    | none => ancestry_text
  let token_hint :=
    match m.estimated_tokens with
    | some tokens => " • " ++ toString tokens ++ " tokens"
    | none => ""
  chunk_kind ++ " " ++ breadcrumb_text ++ token_hint

/-- Character-level model of Rust `str::starts_with`. -/
def charsPrefix : List Char → List Char → Bool
  | [], _ => true
  | _ :: _, [] => false
  | a :: asx, b :: bs => a == b && charsPrefix asx bs

/-- Character-level model of `line_text.trim_start().starts_with(p)`. -/
def trimmedStartsWith (t p : String) : Bool :=
  charsPrefix p.data (t.data.dropWhile Char.isWhitespace)

/-- Boundary classification of the no-chunk fallback path. -/
def isBoundaryLine (t : String) : Bool :=
  trimmedStartsWith t "fn " || trimmedStartsWith t "func " ||
  trimmedStartsWith t "def " || trimmedStartsWith t "class " ||
  trimmedStartsWith t "impl " || trimmedStartsWith t "struct " ||
  trimmedStartsWith t "enum "

/-- Rendering of one rail slot into a column cell: single-line `─`, start
`┌`, end `└`, interior `│`, empty `' '`; `is_match` iff the occupant's span
equals the matched chunk's span on both endpoints. -/
def columnFor (chunk_meta : Option IndexedChunkMeta) (n : Nat)
    (slot : Option IndexedChunkMeta) : ChunkColumnChar :=
  match slot with
  | some m =>
    let c :=
      if m.span.line_start == m.span.line_end then '─'
      else if n == m.span.line_start then '┌'
      else if n == m.span.line_end then '└'
      else '│'
    let im :=
      match chunk_meta with
      | some mc =>
        mc.span.line_start == m.span.line_start &&
          mc.span.line_end == m.span.line_end
      | none => false
    ⟨c, im⟩
  | none => ⟨' ', false⟩

def buildColumns (chunk_meta : Option IndexedChunkMeta) (n : Nat)
    (slots : List (Option IndexedChunkMeta)) : List ChunkColumnChar :=
  slots.map (columnFor chunk_meta n)

/-- Overlay symbol for a covering text chunk. -/
def textOverlayChar (n : Nat) (m : IndexedChunkMeta) : Char :=
  if m.span.line_start == m.span.line_end then '·'
  else if n == m.span.line_start then '┌'
  else if n == m.span.line_end then '└'
  else '│'

/-- Text-chunk overlay: when no structural slot is occupied and a text chunk
covers the line, overwrite column 0's symbol (append when no columns exist);
the `is_match` flag of column 0 is left unchanged. -/
def applyTextOverlay : Bool → Option IndexedChunkMeta → Nat →
    List ChunkColumnChar → List ChunkColumnChar
  | true, _, _, cols => cols
  | false, none, _, cols => cols
  | false, some m, n, [] => [⟨textOverlayChar n m, false⟩]
  | false, some m, n, c :: rest => ⟨textOverlayChar n m, c.is_match⟩ :: rest

/-- All builder inputs that stay fixed across the per-line loop of
`collect_chunk_display_lines`. -/
structure RenderCtx where
  match_line : Nat
  chunk_meta : Option IndexedChunkMeta
  all_chunks : List IndexedChunkMeta
  text_chunks : List IndexedChunkMeta
  dm : List ((Nat × Nat) × Nat)
  maxd : Nat
  source_chunks : List IndexedChunkMeta
  first_line : Nat

/-- Label emission: when a matched chunk is supplied and the current line is
its start line, a `Label` row (indented past all rail columns) precedes the
content row. -/
def labelRowsFor (ctx : RenderCtx) (n : Nat) : List ChunkDisplayLine :=
  match ctx.chunk_meta with
  | some m =>
    if n == m.span.line_start then
      [ChunkDisplayLine.Label ctx.maxd (labelText m)]
    else []
  | none => []

/-- The `Content` row for line `n`, built from the post-activation slots
`slots2`: either the no-chunk fallback row, or the rail columns with the
text-chunk overlay applied. -/
def contentRowFor (ctx : RenderCtx) (n : Nat) (t : String)
    (slots2 : List (Option IndexedChunkMeta)) : ChunkDisplayLine :=
  if ctx.all_chunks.isEmpty then
    let b := isBoundaryLine t
    let cols :=
      if b then [ChunkColumnChar.mk '┣' false, ChunkColumnChar.mk '━' false]
      else []
    ChunkDisplayLine.Content cols n t (n == ctx.match_line) false b
  else
    let tc := ctx.text_chunks.find? (fun m =>
      decide (m.span.line_start ≤ n) && decide (n ≤ m.span.line_end))
    let has_any_structural := slots2.any (·.isSome)
    let has_any_chunk := has_any_structural || tc.isSome
    let in_matched :=
      match ctx.chunk_meta with
      | some m =>
        decide (m.span.line_start ≤ n) && decide (n ≤ m.span.line_end)
      | none => false
    let cols :=
      applyTextOverlay has_any_structural tc n
        (buildColumns ctx.chunk_meta n slots2)
    ChunkDisplayLine.Content cols n t (n == ctx.match_line) in_matched
      has_any_chunk

/-- The slots handed to the next line: the fallback path `continue`s before
the post-expire step, the main path runs it. -/
def nextSlots (ctx : RenderCtx) (n : Nat)
    (slots2 : List (Option IndexedChunkMeta)) : List (Option IndexedChunkMeta) :=
  if ctx.all_chunks.isEmpty then slots2 else postExpire n slots2

/-- One iteration of the visible-line loop: expire, activate, emit the
optional label and the content row, post-expire.  Returns the emitted rows
and the slots passed to the next line. -/
def renderLine (ctx : RenderCtx) (n : Nat) (t : String)
    (slots : List (Option IndexedChunkMeta)) :
    List ChunkDisplayLine × List (Option IndexedChunkMeta) :=
  let slots2 :=
    activateAt ctx.dm ctx.maxd n ctx.source_chunks ctx.first_line
      (expireBefore n slots)
  (labelRowsFor ctx n ++ [contentRowFor ctx n t slots2], nextSlots ctx n slots2)

/-- The visible-line loop, starting at line number `n`. -/
def renderLines (ctx : RenderCtx) : Nat → List String →
    List (Option IndexedChunkMeta) → List ChunkDisplayLine
  | _, [], _ => []
  | n, t :: rest, slots =>
    let p := renderLine ctx n t slots
    p.1 ++ renderLines ctx (n + 1) rest p.2

/-- The fixed trailing informational message. -/
def theMessage : String :=
  "Chunk metadata available but no matching chunk found for this line."

/-- The setup of `collect_chunk_display_lines` before the line loop. -/
def mkRenderCtx (match_line : Nat) (chunk_meta : Option IndexedChunkMeta)
    (all_chunks : List IndexedChunkMeta) (context_start context_end : Nat) :
    RenderCtx :=
  let first_line := context_start + 1
  let last_line := context_end
  let structural := structuralChunks all_chunks
  let dm := calculate_chunk_depths structural
  let maxd := calculate_max_depth structural
  let source := structural.filter (fun m =>
    decide (first_line - 1 ≤ m.span.line_end) &&
      decide (m.span.line_start ≤ last_line))
  ⟨match_line, chunk_meta, all_chunks, textChunks all_chunks, dm, maxd,
    source, first_line⟩

/-- The initial slot state of `collect_chunk_display_lines`: `max_depth`
empty slots, pre-populated with continuation chunks. -/
def initialSlots (ctx : RenderCtx) (all_chunks : List IndexedChunkMeta) :
    List (Option IndexedChunkMeta) :=
  prepopulate (structuralChunks all_chunks) ctx.dm ctx.maxd ctx.first_line
    (List.replicate ctx.maxd none)

/-- The line loop of `collect_chunk_display_lines` over the visible slice. -/
def collectBody (lines : List String)
    (context_start context_end match_line : Nat)
    (chunk_meta : Option IndexedChunkMeta)
    (all_chunks : List IndexedChunkMeta) : List ChunkDisplayLine :=
  renderLines (mkRenderCtx match_line chunk_meta all_chunks context_start context_end)
    (context_start + 1)
    ((lines.drop context_start).take (context_end - context_start))
    (initialSlots (mkRenderCtx match_line chunk_meta all_chunks context_start context_end)
      all_chunks)

/-- `collect_chunk_display_lines`.  The slice `lines[context_start..context_end]`
is embedded as drop/take (the Rust slice panics when the range is invalid;
the embedding truncates instead). -/
def collect_chunk_display_lines (lines : List String)
    (context_start context_end match_line : Nat)
    (chunk_meta : Option IndexedChunkMeta)
    (all_chunks : List IndexedChunkMeta) (full_file_mode : Bool) :
    List ChunkDisplayLine :=
  let body := collectBody lines context_start context_end match_line chunk_meta
    all_chunks
  if !full_file_mode && chunk_meta.isNone && !all_chunks.isEmpty then
    body ++ [ChunkDisplayLine.Message theMessage]
  else body

/-- `chunk_display_line_to_string` needs no claim here, but the column/row
observers below are shared by several theorems. -/
def contentColumns : ChunkDisplayLine → Option (List ChunkColumnChar)
  | ChunkDisplayLine.Content cols _ _ _ _ _ => some cols
  | _ => none

def isContentLine : ChunkDisplayLine → Bool
  | ChunkDisplayLine.Content _ _ _ _ _ _ => true
  | _ => false

def isMessageLine : ChunkDisplayLine → Bool
  | ChunkDisplayLine.Message _ => true
  | _ => false

/-- Modelled from the spec: `ck_chunk::ChunkType`, the chunk-type enumeration
of the external chunk-extraction engine (crate `ck_chunk`, not under `src/`);
the seven enumerants are those matched by `convert_chunks_to_meta`. -/
inductive ChunkType where
  | Function
  | Class
  | Method
  | Module
  | TypeSpec
  | Documentation
  | Text
deriving DecidableEq

/-- Modelled from the spec: the metadata record of `ck_chunk::Chunk` (crate
`ck_chunk`, not under `src/`), with exactly the fields read by
`convert_chunks_to_meta`: breadcrumb (optional), ancestry, byte length,
estimated tokens, and the two trivia sequences. -/
structure ChunkMetadata where
  breadcrumb : Option String
  ancestry : List String
  byte_length : Nat
  estimated_tokens : Nat
  leading_trivia : List String
  trailing_trivia : List String
deriving DecidableEq

/-- Modelled from the spec: `ck_chunk::Chunk`, the engine-native chunk record
consumed by the Metadata Adapter. -/
structure Chunk where
  span : Span
  chunk_type : ChunkType
  metadata : ChunkMetadata
deriving DecidableEq

/-- The chunk-type display-string mapping of `convert_chunks_to_meta`. -/
def chunkTypeName : ChunkType → String
  | ChunkType.Function => "function"
  | ChunkType.Class => "class"
  | ChunkType.Method => "method"
  | ChunkType.Module => "module"
  | ChunkType.TypeSpec => "typespec"
  | ChunkType.Documentation => "documentation"
  | ChunkType.Text => "text"

/-- `convert_chunks_to_meta`. -/
def convert_chunks_to_meta (chunks : List Chunk) : List IndexedChunkMeta :=
  chunks.map (fun chunk =>
    ⟨chunk.span, some (chunkTypeName chunk.chunk_type),
      chunk.metadata.breadcrumb, chunk.metadata.ancestry,
      some chunk.metadata.estimated_tokens, some chunk.metadata.byte_length,
      some chunk.metadata.leading_trivia, some chunk.metadata.trailing_trivia⟩)

/-- Spec-side predicate (from the claim's words, for comparison with the
code): `a` is an enclosing ancestor of `c` that does not merely touch `c`,
i.e. `a`'s span properly contains `c`'s span (as a distinct span) and does
not end exactly where `c` starts. -/
def spanEncloses (a c : Span) : Prop :=
  a ≠ c ∧ a.line_start ≤ c.line_start ∧ c.line_end ≤ a.line_end ∧
    c.line_start < a.line_end

instance (a c : Span) : Decidable (spanEncloses a c) := by
  unfold spanEncloses
  infer_instance

/-- Spec-side predicate: two spans are laminar — nested one way or the other,
or disjoint up to a shared boundary line. -/
def laminarPair (a b : Span) : Prop :=
  a.line_end ≤ b.line_start ∨ b.line_end ≤ a.line_start ∨
    (a.line_start ≤ b.line_start ∧ b.line_end ≤ a.line_end) ∨
    (b.line_start ≤ a.line_start ∧ a.line_end ≤ b.line_end)

instance laminarPairDecidable (a b : Span) : Decidable (laminarPair a b) := by
  unfold laminarPair
  infer_instance

/-- Helper for building example chunks in witnesses and counterexamples. -/
def mkChunk (s e : Nat) : IndexedChunkMeta :=
  ⟨⟨s, e⟩, some "function", none, [], none, none, none, none⟩

/-- Spec-side description of the no-chunk fallback rows (from the claim's
words): each visible line becomes a `Content` row whose columns are exactly
the two-character boundary marker on definition-keyword lines and empty
otherwise, with `has_any_chunk` mirroring the classification. -/
def fallbackRows (match_line : Nat) : Nat → List String → List ChunkDisplayLine
  | _, [] => []
  | n, t :: ts =>
    ChunkDisplayLine.Content
      (if isBoundaryLine t then
        [ChunkColumnChar.mk '┣' false, ChunkColumnChar.mk '━' false]
      else []) n t (n == match_line) false (isBoundaryLine t) ::
      fallbackRows match_line (n + 1) ts

/-! ### Sorting lemmas -/

theorem insertLe_perm (le : α → α → Bool) (a : α) (l : List α) :
    List.Perm (insertLe le a l) (a :: l) := by
  induction l with
  | nil => simp [insertLe]
  | cons b l ih =>
    simp only [insertLe]
    by_cases h : le a b
    · simp [h]
    · simp only [h, if_neg, Bool.false_eq_true, not_false_iff, ite_false]
      exact (ih.cons b).trans (List.Perm.swap a b l)

theorem insertionSort_perm (le : α → α → Bool) (l : List α) :
    List.Perm (insertionSort le l) l := by
  induction l with
  | nil => simp [insertionSort]
  | cons a l ih =>
    exact (insertLe_perm le a (insertionSort le l)).trans (ih.cons a)

theorem insertLe_pairwise (le : α → α → Bool)
    (htot : ∀ a b, le a b = true ∨ le b a = true)
    (htrans : ∀ a b c, le a b = true → le b c = true → le a c = true)
    (a : α) (l : List α) (hl : l.Pairwise (fun x y => le x y = true)) :
    (insertLe le a l).Pairwise (fun x y => le x y = true) := by
  induction l with
  | nil => simp [insertLe]
  | cons b l ih =>
    rcases List.pairwise_cons.mp hl with ⟨hb, hl'⟩
    by_cases h : le a b = true
    · simp only [insertLe, h, ite_true]
      refine List.pairwise_cons.mpr ⟨?_, hl⟩
      intro y hy
      rcases List.mem_cons.mp hy with rfl | hy
      · exact h
      · exact htrans a b y h (hb y hy)
    · have hba : le b a = true := (htot a b).resolve_left h
      simp only [insertLe, h, ite_false, Bool.false_eq_true, if_neg,
        not_false_iff]
      refine List.pairwise_cons.mpr ⟨?_, ih hl'⟩
      intro y hy
      have hy' : y ∈ a :: l := (insertLe_perm le a l).mem_iff.mp hy
      rcases List.mem_cons.mp hy' with rfl | h'
      · exact hba
      · exact hb y h'

theorem chunkSortLE_total (a b : IndexedChunkMeta) :
    chunkSortLE a b = true ∨ chunkSortLE b a = true := by
  simp only [chunkSortLE, Bool.or_eq_true, Bool.and_eq_true, decide_eq_true_eq,
    beq_iff_eq]
  omega

theorem chunkSortLE_trans (a b c : IndexedChunkMeta) :
    chunkSortLE a b = true → chunkSortLE b c = true → chunkSortLE a c = true := by
  simp only [chunkSortLE, Bool.or_eq_true, Bool.and_eq_true, decide_eq_true_eq,
    beq_iff_eq]
  omega

theorem sortChunks_perm (cs : List IndexedChunkMeta) :
    List.Perm (sortChunks cs) cs :=
  insertionSort_perm chunkSortLE cs

theorem sortChunks_pairwise (cs : List IndexedChunkMeta) :
    (sortChunks cs).Pairwise (fun a b => chunkSortLE a b = true) := by
  unfold sortChunks
  induction cs with
  | nil => simp [insertionSort]
  | cons a l ih =>
    exact insertLe_pairwise chunkSortLE chunkSortLE_total chunkSortLE_trans a _ ih

theorem chunkSortLE_start_le (a b : IndexedChunkMeta)
    (h : chunkSortLE a b = true) :
    a.span.line_start ≤ b.span.line_start := by
  simp only [chunkSortLE, Bool.or_eq_true, Bool.and_eq_true, decide_eq_true_eq,
    beq_iff_eq] at h
  omega

theorem sortChunks_starts_mono (cs : List IndexedChunkMeta) :
    (sortChunks cs).Pairwise
      (fun a b => a.span.line_start ≤ b.span.line_start) :=
  (sortChunks_pairwise cs).imp (fun h => chunkSortLE_start_le _ _ h)

/-! ### Sweep-line lemmas -/

theorem sweepInsertions_length (l : List IndexedChunkMeta)
    (st : List (Nat × Nat × Nat)) :
    (sweepInsertions l st).length = l.length := by
  induction l generalizing st with
  | nil => simp [sweepInsertions]
  | cons m rest ih => simp [sweepInsertions, ih]

theorem sweepInsertions_keys (l : List IndexedChunkMeta)
    (st : List (Nat × Nat × Nat)) :
    (sweepInsertions l st).map (·.1) =
      l.map (fun m => (m.span.line_start, m.span.line_end)) := by
  induction l generalizing st with
  | nil => simp [sweepInsertions]
  | cons m rest ih => simp [sweepInsertions, ih]

theorem sweepInsertions_getElem? (l : List IndexedChunkMeta)
    (st : List (Nat × Nat × Nat)) (i : Nat)
    (hsort : l.Pairwise (fun a b => a.span.line_start ≤ b.span.line_start)) :
    (sweepInsertions l st)[i]? = (l[i]?).map (fun c =>
      ((c.span.line_start, c.span.line_end),
        (st.filter (fun t => decide (c.span.line_start < t.2.1))).length +
          ((l.take i).filter
            (fun a => decide (c.span.line_start < a.span.line_end))).length)) := by
  induction l generalizing st i with
  | nil => simp [sweepInsertions]
  | cons c rest ih =>
    rcases List.pairwise_cons.mp hsort with ⟨hc, hrest⟩
    cases i with
    | zero => simp [sweepInsertions]
    | succ i =>
      simp only [sweepInsertions, List.getElem?_cons_succ]
      rw [ih _ i hrest]
      cases hro : rest[i]? with
      | none => simp
      | some c' =>
        have hc'mem : c' ∈ rest := by
          have h' := List.getElem?_eq_some.mp hro
          obtain ⟨hlt, he⟩ := h'
          exact he ▸ List.getElem_mem hlt
        have hle : c.span.line_start ≤ c'.span.line_start := hc c' hc'mem
        have hfl : ((st.filter (fun t => decide (c.span.line_start < t.2.1))).filter
            (fun t => decide (c'.span.line_start < t.2.1))) =
            st.filter (fun t => decide (c'.span.line_start < t.2.1)) := by
          rw [List.filter_filter]
          apply List.filter_congr
          intro t _
          by_cases h : c'.span.line_start < t.2.1
          · have h' : c.span.line_start < t.2.1 := by omega
            simp [h, h']
          · simp [h]
        simp only [Option.map_some', List.take_succ_cons, List.filter_append, hfl,
          List.filter_cons]
        by_cases h2 : c'.span.line_start < c.span.line_end
        · have hd : decide (c'.span.line_start < c.span.line_end) = true :=
            decide_eq_true h2
          simp only [hd, ite_true, List.filter_nil, List.length_append,
            List.length_cons, List.length_nil, Option.some.injEq,
            Prod.mk.injEq, true_and]
          omega
        · have hd : decide (c'.span.line_start < c.span.line_end) = false :=
            decide_eq_false h2
          simp only [hd, Bool.false_eq_true, ite_false, List.filter_nil,
            List.length_append, List.length_nil, Option.some.injEq,
            Prod.mk.injEq, true_and]
          omega


/-- The depth-recording formula: the `i`-th insertion (in sorted processing
order) records the `i`-th sorted chunk's span, with depth the number of
already-processed chunks whose `line_end` is strictly greater than the
chunk's `line_start`. -/
theorem depthInsertions_getElem? (cs : List IndexedChunkMeta) (i : Nat) :
    (depthInsertions cs)[i]? = ((sortChunks cs)[i]?).map (fun c =>
      ((c.span.line_start, c.span.line_end),
        (((sortChunks cs).take i).filter
          (fun a => decide (c.span.line_start < a.span.line_end))).length)) := by
  unfold depthInsertions
  rw [sweepInsertions_getElem? (sortChunks cs) [] i (sortChunks_starts_mono cs)]
  simp

/-! ### Depth-map (HashMap model) lemmas -/

theorem depthGet_mapInsert (m : List ((Nat × Nat) × Nat)) (k : Nat × Nat)
    (v : Nat) (k' : Nat × Nat) :
    depthGet (mapInsert m k v) k' = if k' = k then some v else depthGet m k' := by
  unfold depthGet mapInsert
  induction m with
  | nil =>
    by_cases h : k' = k
    · subst h
      simp [List.find?]
    · have hkk : (k == k') = false := by
        simp only [beq_eq_false_iff_ne, ne_eq]
        exact fun he => h he.symm
      simp [List.find?, hkk, h]
  | cons p m ih =>
    rw [List.filter_cons]
    by_cases hp : p.1 = k
    · have h1 : (!(p.1 == k)) = false := by simp [hp]
      simp only [h1, Bool.false_eq_true, ite_false]
      rw [ih]
      by_cases h : k' = k
      · simp [h]
      · have h2 : (p.1 == k') = false := by
          simp only [beq_eq_false_iff_ne, ne_eq, hp]
          exact fun he => h he.symm
        simp [List.find?_cons, h2, h]
    · have h1 : (!(p.1 == k)) = true := by simp [hp]
      simp only [h1, ite_true, List.cons_append]
      by_cases hpk : p.1 = k'
      · have h2 : (p.1 == k') = true := by simp [hpk]
        have hk : ¬ k' = k := fun he => hp (hpk.trans he)
        simp [List.find?_cons, h2, hk]
      · have h2 : (p.1 == k') = false := by simp [hpk]
        simp only [List.find?_cons, h2, Bool.false_eq_true, ite_false]
        rw [ih]

theorem depthGet_foldl (ins : List ((Nat × Nat) × Nat))
    (m0 : List ((Nat × Nat) × Nat)) (k : Nat × Nat) :
    depthGet (ins.foldl (fun m p => mapInsert m p.1 p.2) m0) k =
      match (ins.filter (fun p => p.1 == k)).getLast? with
      | some p => some p.2
      | none => depthGet m0 k := by
  induction ins generalizing m0 with
  | nil => simp
  | cons p ins ih =>
    simp only [List.foldl_cons, List.filter_cons]
    rw [ih]
    by_cases hp : p.1 = k
    · have h1 : (p.1 == k) = true := by simp [hp]
      simp only [h1, ite_true]
      cases hl : ins.filter (fun q => q.1 == k) with
      | nil =>
        simp only [hl, List.getLast?_singleton]
        rw [depthGet_mapInsert]
        simp [hp.symm]
      | cons q l =>
        simp only [hl, List.getLast?_cons_cons]
        cases hgl : (q :: l).getLast? with
        | none =>
          rw [List.getLast?_eq_none_iff] at hgl
          exact absurd hgl (by simp)
        | some r => rfl
    · have h1 : (p.1 == k) = false := by simp [hp]
      simp only [h1, Bool.false_eq_true, ite_false]
      cases hl : ins.filter (fun q => q.1 == k) with
      | nil =>
        simp only [hl, List.getLast?_nil]
        rw [depthGet_mapInsert]
        have hk : ¬ k = p.1 := fun he => hp he.symm
        simp [hk]
      | cons q l => rfl

theorem mapInsert_keys_nodup (m : List ((Nat × Nat) × Nat)) (k : Nat × Nat)
    (v : Nat) (h : (m.map (·.1)).Nodup) :
    ((mapInsert m k v).map (·.1)).Nodup := by
  unfold mapInsert
  rw [List.map_append]
  apply List.Nodup.append
  · exact List.Nodup.sublist (List.Sublist.map _ (List.filter_sublist _)) h
  · simp
  · intro x hx hx2
    simp only [List.map_cons, List.map_nil, List.mem_singleton] at hx2
    subst hx2
    rcases List.mem_map.mp hx with ⟨p, hp, he⟩
    have hmem := List.of_mem_filter hp
    rw [he] at hmem
    simp at hmem

theorem calculate_chunk_depths_keys_nodup_aux
    (ins : List ((Nat × Nat) × Nat)) (m0 : List ((Nat × Nat) × Nat))
    (h : (m0.map (·.1)).Nodup) :
    (((ins.foldl (fun m p => mapInsert m p.1 p.2) m0)).map (·.1)).Nodup := by
  induction ins generalizing m0 with
  | nil => exact h
  | cons p ins ih => exact ih _ (mapInsert_keys_nodup m0 p.1 p.2 h)

theorem mapInsert_keys_mem (m : List ((Nat × Nat) × Nat)) (k : Nat × Nat)
    (v : Nat) (k' : Nat × Nat) :
    k' ∈ (mapInsert m k v).map (·.1) ↔ k' = k ∨ k' ∈ m.map (·.1) := by
  unfold mapInsert
  rw [List.map_append]
  simp only [List.mem_append, List.map_cons, List.map_nil, List.mem_singleton]
  constructor
  · rintro (h | h)
    · rcases List.mem_map.mp h with ⟨p, hp, he⟩
      exact Or.inr (List.mem_map.mpr ⟨p, (List.filter_sublist _).subset hp, he⟩)
    · exact Or.inl h
  · rintro (rfl | h)
    · exact Or.inr rfl
    · by_cases hk : k' = k
      · exact Or.inr hk
      · left
        rcases List.mem_map.mp h with ⟨p, hp, he⟩
        refine List.mem_map.mpr ⟨p, List.mem_filter.mpr ⟨hp, ?_⟩, he⟩
        subst he
        simp [hk]

theorem foldl_keys_mem (ins : List ((Nat × Nat) × Nat))
    (m0 : List ((Nat × Nat) × Nat)) (k : Nat × Nat) :
    k ∈ ((ins.foldl (fun m p => mapInsert m p.1 p.2) m0)).map (·.1) ↔
      k ∈ ins.map (·.1) ∨ k ∈ m0.map (·.1) := by
  induction ins generalizing m0 with
  | nil => simp
  | cons p ins ih =>
    simp only [List.foldl_cons, List.map_cons, List.mem_cons]
    rw [ih, mapInsert_keys_mem]
    tauto



theorem length_filter_eq_countP (l : List α) (p : α → Bool) :
    (l.filter p).length = l.countP p := by
  induction l with
  | nil => rfl
  | cons a l ih =>
    rw [List.filter_cons, List.countP_cons]
    by_cases h : p a <;> simp [h, ih]

theorem filter_key_eq_of_nodup (ins : List ((Nat × Nat) × Nat)) (i : Nat)
    (p : (Nat × Nat) × Nat) (hn : (ins.map (·.1)).Nodup)
    (hi : ins[i]? = some p) :
    ins.filter (fun q => q.1 == p.1) = [p] := by
  induction ins generalizing i with
  | nil => simp at hi
  | cons q ins ih =>
    rw [List.map_cons, List.nodup_cons] at hn
    obtain ⟨hq, hn'⟩ := hn
    cases i with
    | zero =>
      obtain rfl : q = p := by simpa using hi
      rw [List.filter_cons]
      simp only [beq_self_eq_true, ite_true]
      have hnil : ins.filter (fun r => r.1 == q.1) = [] := by
        apply List.filter_eq_nil_iff.mpr
        intro a ha
        simp only [beq_iff_eq]
        intro he
        exact hq (List.mem_map.mpr ⟨a, ha, he⟩)
      rw [hnil]
    | succ i =>
      rw [List.getElem?_cons_succ] at hi
      have hpmem : p ∈ ins := by
        obtain ⟨hlt, he⟩ := List.getElem?_eq_some.mp hi
        exact he ▸ List.getElem_mem hlt
      have hqp : (q.1 == p.1) = false := by
        simp only [beq_eq_false_iff_ne, ne_eq]
        intro he
        exact hq (List.mem_map.mpr ⟨p, hpmem, he.symm⟩)
      rw [List.filter_cons]
      simp only [hqp, Bool.false_eq_true, ite_false]
      exact ih i hn' hi

theorem depthGet_calc_of_insertion (cs : List IndexedChunkMeta) (i : Nat)
    (p : (Nat × Nat) × Nat)
    (hn : ((depthInsertions cs).map (·.1)).Nodup)
    (hi : (depthInsertions cs)[i]? = some p) :
    depthGet (calculate_chunk_depths cs) p.1 = some p.2 := by
  unfold calculate_chunk_depths
  rw [depthGet_foldl, filter_key_eq_of_nodup (depthInsertions cs) i p hn hi]
  rfl

theorem span_eq_of_parts (x y : Span) (h1 : x.line_start = y.line_start)
    (h2 : x.line_end = y.line_end) : x = y := by
  cases x
  cases y
  simp_all

theorem chunkSortLE_iff (a b : IndexedChunkMeta) :
    chunkSortLE a b = true ↔
      (a.span.line_start < b.span.line_start ∨
        (a.span.line_start = b.span.line_start ∧
          b.span.line_end ≤ a.span.line_end)) := by
  simp [chunkSortLE, Bool.or_eq_true, Bool.and_eq_true, decide_eq_true_eq,
    beq_iff_eq]

theorem encloses_iff_open (a c : IndexedChunkMeta)
    (hvalc : c.span.line_start ≤ c.span.line_end)
    (hsort : chunkSortLE a c = true) (hne : a.span ≠ c.span)
    (hlam : laminarPair a.span c.span) :
    spanEncloses a.span c.span ↔ c.span.line_start < a.span.line_end := by
  rw [chunkSortLE_iff] at hsort
  constructor
  · rintro ⟨_, _, _, h4⟩
    exact h4
  · intro hq
    refine ⟨hne, ?_, ?_, hq⟩
    · rcases hsort with h | ⟨h, _⟩
      · omega
      · omega
    · rcases hlam with h | h | ⟨h1, h2⟩ | ⟨h1, h2⟩
      · omega
      · omega
      · omega
      · exfalso
        have hse : a.span.line_start = c.span.line_start := by omega
        rcases hsort with h | ⟨_, h3⟩
        · omega
        · exact hne (span_eq_of_parts _ _ hse (by omega))

theorem not_encloses_of_after (c b : IndexedChunkMeta)
    (hsort : chunkSortLE c b = true) (_hne : c.span ≠ b.span) :
    ¬ spanEncloses b.span c.span := by
  rw [chunkSortLE_iff] at hsort
  rintro ⟨hne', h1, h2, h3⟩
  rcases hsort with h | ⟨h, h4⟩
  · omega
  · exact hne' (span_eq_of_parts _ _ (by omega) (by omega))

/-- For a pairwise-distinct, laminar family of spans, the recorded depth of a
chunk is exactly the number of chunks whose spans properly enclose it without
merely touching its start line. -/
theorem depth_count_of_laminar (cs : List IndexedChunkMeta)
    (hval : ∀ c ∈ cs, c.span.line_start ≤ c.span.line_end)
    (hdist : cs.Pairwise (fun a b => a.span ≠ b.span))
    (hlam : cs.Pairwise (fun a b => laminarPair a.span b.span))
    (c : IndexedChunkMeta) (hc : c ∈ cs) :
    depthGet (calculate_chunk_depths cs) (c.span.line_start, c.span.line_end) =
      some (cs.countP (fun a => decide (spanEncloses a.span c.span))) := by
  have hperm : List.Perm (sortChunks cs) cs := sortChunks_perm cs
  have hdist' : (sortChunks cs).Pairwise (fun a b => a.span ≠ b.span) :=
    (hperm.pairwise_iff (fun h he => h he.symm)).mpr hdist
  have hlam' : (sortChunks cs).Pairwise (fun a b => laminarPair a.span b.span) := by
    refine (hperm.pairwise_iff ?_).mpr hlam
    intro a b h
    unfold laminarPair at h ⊢
    tauto
  have hcl : c ∈ sortChunks cs := hperm.mem_iff.mpr hc
  obtain ⟨i, hilt, hie⟩ := List.mem_iff_getElem.mp hcl
  have hi? : (sortChunks cs)[i]? = some c := by
    rw [List.getElem?_eq_getElem hilt, hie]
  have hins : (depthInsertions cs)[i]? =
      some ((c.span.line_start, c.span.line_end),
        (((sortChunks cs).take i).filter
          (fun a => decide (c.span.line_start < a.span.line_end))).length) := by
    rw [depthInsertions_getElem?, hi?]
    rfl
  have hkeys : ((depthInsertions cs).map (·.1)).Nodup := by
    unfold depthInsertions
    rw [sweepInsertions_keys]
    exact hdist'.map _ (fun {a b} h he =>
      h (span_eq_of_parts _ _ (congrArg Prod.fst he) (congrArg Prod.snd he)))
  have hget := depthGet_calc_of_insertion cs i _ hkeys hins
  rw [hget]
  congr 1
  rw [length_filter_eq_countP]
  -- combined pairwise relation on the sorted list
  have hcomb : (sortChunks cs).Pairwise (fun a b =>
      (chunkSortLE a b = true ∧ a.span ≠ b.span) ∧ laminarPair a.span b.span) :=
    ((sortChunks_pairwise cs).and hdist').and hlam'
  -- split the sorted list at position i
  have hsplit : (sortChunks cs).take i ++ (sortChunks cs).drop i = sortChunks cs :=
    List.take_append_drop i (sortChunks cs)
  have hdropc : (sortChunks cs).drop i = c :: (sortChunks cs).drop (i + 1) := by
    rw [List.drop_eq_getElem_cons hilt, hie]
  have hcross : ∀ a ∈ (sortChunks cs).take i,
      (chunkSortLE a c = true ∧ a.span ≠ c.span) ∧ laminarPair a.span c.span := by
    intro a ha
    have := (List.pairwise_append.mp (hsplit ▸ hcomb)).2.2
    exact this a ha c (by rw [hdropc]; exact List.mem_cons_self c _)
  have hafter : ∀ b ∈ (sortChunks cs).drop (i + 1),
      (chunkSortLE c b = true ∧ c.span ≠ b.span) := by
    have hpd : ((sortChunks cs).drop i).Pairwise (fun a b =>
        (chunkSortLE a b = true ∧ a.span ≠ b.span) ∧ laminarPair a.span b.span) :=
      (List.pairwise_append.mp (hsplit ▸ hcomb)).2.1
    rw [hdropc] at hpd
    intro b hb
    exact ((List.pairwise_cons.mp hpd).1 b hb).1
  have hvalc : c.span.line_start ≤ c.span.line_end := hval c hc
  calc ((sortChunks cs).take i).countP
        (fun a => decide (c.span.line_start < a.span.line_end))
      = ((sortChunks cs).take i).countP
        (fun a => decide (spanEncloses a.span c.span)) := by
        apply List.countP_congr
        intro a ha
        obtain ⟨⟨hs, hn⟩, hlm⟩ := hcross a ha
        have := encloses_iff_open a c hvalc hs hn hlm
        by_cases hq : c.span.line_start < a.span.line_end
        · simp [hq, this.mpr hq]
        · have : ¬ spanEncloses a.span c.span := fun he => hq (this.mp he)
          simp [hq, this]
    _ = (sortChunks cs).countP
        (fun a => decide (spanEncloses a.span c.span)) := by
        conv_rhs => rw [← hsplit]
        rw [List.countP_append]
        have hz : ((sortChunks cs).drop i).countP
            (fun a => decide (spanEncloses a.span c.span)) = 0 := by
          rw [hdropc, List.countP_cons]
          have hcc : (decide (spanEncloses c.span c.span)) = false := by
            simp [spanEncloses]
          rw [hcc]
          simp only [Bool.false_eq_true, ite_false, Nat.add_zero]
          rw [List.countP_eq_zero]
          intro b hb
          obtain ⟨hs, hn⟩ := hafter b hb
          simp only [decide_eq_true_eq]
          exact not_encloses_of_after c b hs hn
        rw [hz]
        omega
    _ = cs.countP (fun a => decide (spanEncloses a.span c.span)) :=
        hperm.countP_eq _



/-! ### Rail-tracker lemmas -/

theorem slotInsert_mem (dm : List ((Nat × Nat) × Nat)) (maxd : Nat)
    (slots : List (Option IndexedChunkMeta)) (m x : IndexedChunkMeta)
    (h : some x ∈ slotInsert dm maxd slots m) : some x ∈ slots ∨ x = m := by
  unfold slotInsert at h
  cases hd : depthGet dm (m.span.line_start, m.span.line_end) with
  | none =>
    rw [hd] at h
    simp only [slotPlace] at h
    exact Or.inl h
  | some d =>
    rw [hd] at h
    simp only [slotPlace] at h
    by_cases hlt : d < maxd
    · rw [if_pos hlt] at h
      rcases List.mem_or_eq_of_mem_set h with h' | h'
      · exact Or.inl h'
      · exact Or.inr (by injection h')
    · rw [if_neg hlt] at h
      exact Or.inl h

theorem foldl_slotInsert_mem (dm : List ((Nat × Nat) × Nat)) (maxd : Nat)
    (l : List IndexedChunkMeta) (slots : List (Option IndexedChunkMeta))
    (x : IndexedChunkMeta) (h : some x ∈ l.foldl (slotInsert dm maxd) slots) :
    some x ∈ slots ∨ x ∈ l := by
  induction l generalizing slots with
  | nil => exact Or.inl h
  | cons m l ih =>
    rw [List.foldl_cons] at h
    rcases ih _ h with h' | h'
    · rcases slotInsert_mem dm maxd slots m x h' with h'' | h''
      · exact Or.inl h''
      · exact Or.inr (h'' ▸ List.mem_cons_self m l)
    · exact Or.inr (List.mem_cons_of_mem m h')

theorem prepopulate_mem (structural : List IndexedChunkMeta)
    (dm : List ((Nat × Nat) × Nat)) (maxd first_line : Nat)
    (slots : List (Option IndexedChunkMeta)) (x : IndexedChunkMeta)
    (h : some x ∈ prepopulate structural dm maxd first_line slots) :
    some x ∈ slots ∨
      (x ∈ structural ∧ x.span.line_start < first_line ∧
        first_line ≤ x.span.line_end) := by
  unfold prepopulate at h
  induction structural generalizing slots with
  | nil => exact Or.inl h
  | cons m l ih =>
    rw [List.foldl_cons] at h
    by_cases hcond : (decide (m.span.line_start < first_line) &&
        decide (first_line ≤ m.span.line_end)) = true
    · rw [if_pos hcond] at h
      rcases ih _ h with h' | h'
      · rcases slotInsert_mem dm maxd slots m x h' with h'' | h''
        · exact Or.inl h''
        · subst h''
          simp only [Bool.and_eq_true, decide_eq_true_eq] at hcond
          exact Or.inr ⟨List.mem_cons_self _ _, hcond.1, hcond.2⟩
      · exact Or.inr ⟨List.mem_cons_of_mem m h'.1, h'.2.1, h'.2.2⟩
    · rw [if_neg hcond] at h
      rcases ih _ h with h' | h'
      · exact Or.inl h'
      · exact Or.inr ⟨List.mem_cons_of_mem m h'.1, h'.2.1, h'.2.2⟩

theorem expireBefore_mem (n : Nat) (slots : List (Option IndexedChunkMeta))
    (x : IndexedChunkMeta) (h : some x ∈ expireBefore n slots) :
    some x ∈ slots ∧ n ≤ x.span.line_end := by
  unfold expireBefore at h
  rcases List.mem_map.mp h with ⟨s, hs, he⟩
  cases s with
  | none => simp [expireSlot] at he
  | some m =>
    simp only [expireSlot] at he
    by_cases hlt : m.span.line_end < n
    · rw [if_pos (decide_eq_true hlt)] at he
      exact absurd he (by simp)
    · rw [if_neg (by simpa using hlt)] at he
      obtain rfl : m = x := by injection he
      exact ⟨hs, by omega⟩

theorem postExpire_mem (n : Nat) (slots : List (Option IndexedChunkMeta))
    (x : IndexedChunkMeta) (h : some x ∈ postExpire n slots) :
    some x ∈ slots ∧ x.span.line_end ≠ n := by
  unfold postExpire at h
  rcases List.mem_map.mp h with ⟨s, hs, he⟩
  cases s with
  | none => simp [postExpireSlot] at he
  | some m =>
    simp only [postExpireSlot] at he
    by_cases heq : m.span.line_end = n
    · rw [if_pos (by simpa using heq)] at he
      exact absurd he (by simp)
    · rw [if_neg (by simpa using heq)] at he
      obtain rfl : m = x := by injection he
      exact ⟨hs, heq⟩

theorem startsAt_mem (source : List IndexedChunkMeta) (first_line n : Nat)
    (x : IndexedChunkMeta) (h : x ∈ startsAt source first_line n) :
    x ∈ source ∧ x.span.line_start = n := by
  unfold startsAt at h
  have h' := (insertionSort_perm lenDescLE _).mem_iff.mp h
  obtain ⟨hmem, hcond⟩ := List.mem_filter.mp h'
  simp only [Bool.and_eq_true, decide_eq_true_eq, beq_iff_eq] at hcond
  exact ⟨hmem, hcond.2⟩

theorem activateAt_mem (dm : List ((Nat × Nat) × Nat)) (maxd n : Nat)
    (source : List IndexedChunkMeta) (first_line : Nat)
    (slots : List (Option IndexedChunkMeta)) (x : IndexedChunkMeta)
    (h : some x ∈ activateAt dm maxd n source first_line slots) :
    some x ∈ slots ∨ (x ∈ source ∧ x.span.line_start = n) := by
  unfold activateAt at h
  rcases foldl_slotInsert_mem dm maxd _ slots x h with h' | h'
  · exact Or.inl h'
  · exact Or.inr (startsAt_mem source first_line n x h')

theorem slotInsert_length (dm : List ((Nat × Nat) × Nat)) (maxd : Nat)
    (slots : List (Option IndexedChunkMeta)) (m : IndexedChunkMeta) :
    (slotInsert dm maxd slots m).length = slots.length := by
  unfold slotInsert
  cases depthGet dm (m.span.line_start, m.span.line_end) with
  | none => rfl
  | some d =>
    simp only [slotPlace]
    by_cases hlt : d < maxd
    · rw [if_pos hlt, List.length_set]
    · rw [if_neg hlt]

theorem foldl_slotInsert_length (dm : List ((Nat × Nat) × Nat)) (maxd : Nat)
    (l : List IndexedChunkMeta) (slots : List (Option IndexedChunkMeta)) :
    (l.foldl (slotInsert dm maxd) slots).length = slots.length := by
  induction l generalizing slots with
  | nil => rfl
  | cons m l ih => rw [List.foldl_cons, ih, slotInsert_length]

theorem activateAt_length (dm : List ((Nat × Nat) × Nat)) (maxd n : Nat)
    (source : List IndexedChunkMeta) (first_line : Nat)
    (slots : List (Option IndexedChunkMeta)) :
    (activateAt dm maxd n source first_line slots).length = slots.length :=
  foldl_slotInsert_length dm maxd _ slots

theorem expireBefore_length (n : Nat) (slots : List (Option IndexedChunkMeta)) :
    (expireBefore n slots).length = slots.length := by
  unfold expireBefore
  rw [List.length_map]

theorem postExpire_length (n : Nat) (slots : List (Option IndexedChunkMeta)) :
    (postExpire n slots).length = slots.length := by
  unfold postExpire
  rw [List.length_map]

theorem prepopulate_length (structural : List IndexedChunkMeta)
    (dm : List ((Nat × Nat) × Nat)) (maxd first_line : Nat)
    (slots : List (Option IndexedChunkMeta)) :
    (prepopulate structural dm maxd first_line slots).length = slots.length := by
  unfold prepopulate
  induction structural generalizing slots with
  | nil => rfl
  | cons m l ih =>
    rw [List.foldl_cons]
    by_cases hcond : (decide (m.span.line_start < first_line) &&
        decide (first_line ≤ m.span.line_end)) = true
    · rw [if_pos hcond, ih, slotInsert_length]
    · rw [if_neg hcond, ih]

theorem buildColumns_length (chunk_meta : Option IndexedChunkMeta) (n : Nat)
    (slots : List (Option IndexedChunkMeta)) :
    (buildColumns chunk_meta n slots).length = slots.length := by
  unfold buildColumns
  rw [List.length_map]

theorem applyTextOverlay_length (hs : Bool) (tc : Option IndexedChunkMeta)
    (n : Nat) (cols : List ChunkColumnChar) (h : cols ≠ []) :
    (applyTextOverlay hs tc n cols).length = cols.length := by
  cases hs with
  | true => rfl
  | false =>
    cases tc with
    | none => rfl
    | some m =>
      cases cols with
      | nil => exact absurd rfl h
      | cons c rest => rfl

theorem applyTextOverlay_all_false (hs : Bool) (tc : Option IndexedChunkMeta)
    (n : Nat) (cols : List ChunkColumnChar)
    (h : ∀ c ∈ cols, c.is_match = false) :
    ∀ c ∈ applyTextOverlay hs tc n cols, c.is_match = false := by
  cases hs with
  | true => exact h
  | false =>
    cases tc with
    | none => exact h
    | some m =>
      cases cols with
      | nil =>
        intro c hc
        simp only [applyTextOverlay, List.mem_singleton] at hc
        subst hc
        rfl
      | cons c0 rest =>
        intro c hc
        simp only [applyTextOverlay, List.mem_cons] at hc
        rcases hc with rfl | hc'
        · have := h c0 (List.mem_cons_self c0 rest)
          simpa using this
        · exact h c (List.mem_cons_of_mem c0 hc')

theorem applyTextOverlay_is_match_map (hs : Bool) (tc : Option IndexedChunkMeta)
    (n : Nat) (cols : List ChunkColumnChar) (h : cols ≠ []) :
    (applyTextOverlay hs tc n cols).map (·.is_match) = cols.map (·.is_match) := by
  cases hs with
  | true => rfl
  | false =>
    cases tc with
    | none => rfl
    | some m =>
      cases cols with
      | nil => exact absurd rfl h
      | cons c rest => rfl

theorem columnFor_none_is_match (n : Nat) (slot : Option IndexedChunkMeta) :
    (columnFor none n slot).is_match = false := by
  unfold columnFor
  cases slot <;> rfl

theorem buildColumns_none_all_false (n : Nat)
    (slots : List (Option IndexedChunkMeta)) :
    ∀ c ∈ buildColumns none n slots, c.is_match = false := by
  intro c hc
  rcases List.mem_map.mp hc with ⟨s, _, he⟩
  rw [← he]
  exact columnFor_none_is_match n s



/-! ### Display-loop lemmas -/

theorem renderLine_fst (ctx : RenderCtx) (n : Nat) (t : String)
    (slots : List (Option IndexedChunkMeta)) :
    (renderLine ctx n t slots).1 =
      labelRowsFor ctx n ++
        [contentRowFor ctx n t
          (activateAt ctx.dm ctx.maxd n ctx.source_chunks ctx.first_line
            (expireBefore n slots))] := rfl

theorem renderLine_snd (ctx : RenderCtx) (n : Nat) (t : String)
    (slots : List (Option IndexedChunkMeta)) :
    (renderLine ctx n t slots).2 =
      nextSlots ctx n
        (activateAt ctx.dm ctx.maxd n ctx.source_chunks ctx.first_line
          (expireBefore n slots)) := rfl

theorem renderLines_cons (ctx : RenderCtx) (n : Nat) (t : String)
    (ts : List String) (slots : List (Option IndexedChunkMeta)) :
    renderLines ctx n (t :: ts) slots =
      (renderLine ctx n t slots).1 ++
        renderLines ctx (n + 1) ts (renderLine ctx n t slots).2 := rfl

theorem labelRowsFor_label (ctx : RenderCtx) (n : Nat) :
    ∀ row ∈ labelRowsFor ctx n,
      isMessageLine row = false ∧ contentColumns row = none ∧
        isContentLine row = false := by
  intro row hrow
  unfold labelRowsFor at hrow
  split at hrow
  next m =>
    split at hrow
    · rw [List.mem_singleton] at hrow
      subst hrow
      exact ⟨rfl, rfl, rfl⟩
    · simp at hrow
  next => simp at hrow

theorem contentRowFor_not_message (ctx : RenderCtx) (n : Nat) (t : String)
    (slots2 : List (Option IndexedChunkMeta)) :
    isMessageLine (contentRowFor ctx n t slots2) = false := by
  unfold contentRowFor
  by_cases hemp : ctx.all_chunks.isEmpty = true
  · rw [if_pos hemp]
    rfl
  · rw [if_neg hemp]
    rfl

/-- Every row emitted by the line loop satisfies `P`, provided `P` holds for
all label rows and all content rows built from slot states reachable from a
`Q`-state. -/
theorem renderLines_forall (ctx : RenderCtx) (P : ChunkDisplayLine → Prop)
    (Q : List (Option IndexedChunkMeta) → Prop)
    (hstep : ∀ n slots, Q slots →
      Q (activateAt ctx.dm ctx.maxd n ctx.source_chunks ctx.first_line
        (expireBefore n slots)))
    (hnext : ∀ n slots2, Q slots2 → Q (nextSlots ctx n slots2))
    (hlabel : ∀ n, ∀ row ∈ labelRowsFor ctx n, P row)
    (hcontent : ∀ n t slots2, Q slots2 → P (contentRowFor ctx n t slots2)) :
    ∀ ts n slots, Q slots → ∀ row ∈ renderLines ctx n ts slots, P row := by
  intro ts
  induction ts with
  | nil =>
    intro n slots _ row h
    simp [renderLines] at h
  | cons t ts ih =>
    intro n slots hQ row h
    rw [renderLines_cons] at h
    rcases List.mem_append.mp h with h' | h'
    · rw [renderLine_fst] at h'
      rcases List.mem_append.mp h' with h'' | h''
      · exact hlabel n row h''
      · rw [List.mem_singleton] at h''
        subst h''
        exact hcontent n t _ (hstep n slots hQ)
    · rw [renderLine_snd] at h'
      exact ih (n + 1) _ (hnext n _ (hstep n slots hQ)) row h'

theorem renderLines_no_message (ctx : RenderCtx) :
    ∀ ts n slots, ∀ row ∈ renderLines ctx n ts slots,
      isMessageLine row = false := by
  intro ts n slots
  refine renderLines_forall ctx (fun row => isMessageLine row = false)
    (fun _ => True) (fun _ _ _ => trivial) (fun _ _ _ => trivial)
    (fun n row hrow => (labelRowsFor_label ctx n row hrow).1)
    (fun n t slots2 _ => contentRowFor_not_message ctx n t slots2)
    ts n slots trivial



theorem nextSlots_length (ctx : RenderCtx) (n : Nat)
    (slots2 : List (Option IndexedChunkMeta)) :
    (nextSlots ctx n slots2).length = slots2.length := by
  unfold nextSlots
  by_cases hemp : ctx.all_chunks.isEmpty = true
  · rw [if_pos hemp]
  · rw [if_neg hemp]
    exact postExpire_length n slots2

theorem contentRowFor_empty_eq (ctx : RenderCtx) (n : Nat) (t : String)
    (slots2 : List (Option IndexedChunkMeta))
    (hemp : ctx.all_chunks.isEmpty = true) :
    contentRowFor ctx n t slots2 =
      ChunkDisplayLine.Content
        (if isBoundaryLine t then
          [ChunkColumnChar.mk '┣' false, ChunkColumnChar.mk '━' false]
        else []) n t (n == ctx.match_line) false (isBoundaryLine t) := by
  unfold contentRowFor
  rw [if_pos hemp]

theorem contentRowFor_nonempty_eq (ctx : RenderCtx) (n : Nat) (t : String)
    (slots2 : List (Option IndexedChunkMeta))
    (hemp : ¬ ctx.all_chunks.isEmpty = true) :
    contentRowFor ctx n t slots2 =
      ChunkDisplayLine.Content
        (applyTextOverlay (slots2.any (·.isSome))
          (ctx.text_chunks.find? (fun m =>
            decide (m.span.line_start ≤ n) && decide (n ≤ m.span.line_end)))
          n (buildColumns ctx.chunk_meta n slots2))
        n t (n == ctx.match_line)
        (match ctx.chunk_meta with
        | some m =>
          decide (m.span.line_start ≤ n) && decide (n ≤ m.span.line_end)
        | none => false)
        ((slots2.any (·.isSome)) ||
          (ctx.text_chunks.find? (fun m =>
            decide (m.span.line_start ≤ n) && decide (n ≤ m.span.line_end))).isSome) := by
  unfold contentRowFor
  rw [if_neg hemp]

theorem markerCols_is_match_false (t : String) :
    ∀ c ∈ (if isBoundaryLine t then
        [ChunkColumnChar.mk '┣' false, ChunkColumnChar.mk '━' false]
      else ([] : List ChunkColumnChar)), c.is_match = false := by
  by_cases hb : isBoundaryLine t = true
  · rw [if_pos hb]
    intro c hc
    rcases List.mem_cons.mp hc with rfl | hc'
    · rfl
    · rcases List.mem_cons.mp hc' with rfl | hc''
      · rfl
      · simp at hc''
  · rw [if_neg hb]
    simp

theorem contentRowFor_is_match_false_of_none (ctx : RenderCtx) (n : Nat)
    (t : String) (slots2 : List (Option IndexedChunkMeta))
    (hcm : ctx.chunk_meta = none) :
    ∀ cols, contentColumns (contentRowFor ctx n t slots2) = some cols →
      ∀ c ∈ cols, c.is_match = false := by
  intro cols hcols c hc
  by_cases hemp : ctx.all_chunks.isEmpty = true
  · rw [contentRowFor_empty_eq ctx n t slots2 hemp] at hcols
    unfold contentColumns at hcols
    obtain rfl : _ = cols := by injection hcols
    exact markerCols_is_match_false t c hc
  · rw [contentRowFor_nonempty_eq ctx n t slots2 hemp] at hcols
    unfold contentColumns at hcols
    obtain rfl : _ = cols := by injection hcols
    refine applyTextOverlay_all_false _ _ n _ ?_ c hc
    rw [hcm]
    exact buildColumns_none_all_false n slots2

theorem contentRowFor_is_match_false_of_empty (ctx : RenderCtx) (n : Nat)
    (t : String) (slots2 : List (Option IndexedChunkMeta))
    (hemp : ctx.all_chunks.isEmpty = true) :
    ∀ cols, contentColumns (contentRowFor ctx n t slots2) = some cols →
      ∀ c ∈ cols, c.is_match = false := by
  intro cols hcols c hc
  rw [contentRowFor_empty_eq ctx n t slots2 hemp] at hcols
  unfold contentColumns at hcols
  obtain rfl : _ = cols := by injection hcols
  exact markerCols_is_match_false t c hc

theorem contentRowFor_columns_length (ctx : RenderCtx) (n : Nat) (t : String)
    (slots2 : List (Option IndexedChunkMeta))
    (hemp : ¬ ctx.all_chunks.isEmpty = true) (hpos : 1 ≤ ctx.maxd)
    (hlen : slots2.length = ctx.maxd) :
    ∀ cols, contentColumns (contentRowFor ctx n t slots2) = some cols →
      cols.length = ctx.maxd := by
  intro cols hcols
  rw [contentRowFor_nonempty_eq ctx n t slots2 hemp] at hcols
  unfold contentColumns at hcols
  obtain rfl : _ = cols := by injection hcols
  rw [applyTextOverlay_length]
  · rw [buildColumns_length, hlen]
  · intro hnil
    have := congrArg List.length hnil
    rw [buildColumns_length, hlen] at this
    simp at this
    omega



theorem renderLines_is_match_false_of_none (ctx : RenderCtx)
    (hcm : ctx.chunk_meta = none) :
    ∀ ts n slots, ∀ row ∈ renderLines ctx n ts slots,
      ∀ cols, contentColumns row = some cols →
        ∀ c ∈ cols, c.is_match = false := by
  intro ts n slots
  refine renderLines_forall ctx
    (fun row => ∀ cols, contentColumns row = some cols →
      ∀ c ∈ cols, c.is_match = false)
    (fun _ => True) (fun _ _ _ => trivial) (fun _ _ _ => trivial)
    (fun n row hrow => ?_)
    (fun n t slots2 _ =>
      contentRowFor_is_match_false_of_none ctx n t slots2 hcm)
    ts n slots trivial
  intro cols hcols
  rw [(labelRowsFor_label ctx n row hrow).2.1] at hcols
  exact absurd hcols (by simp)

theorem renderLines_is_match_false_of_empty (ctx : RenderCtx)
    (hemp : ctx.all_chunks.isEmpty = true) :
    ∀ ts n slots, ∀ row ∈ renderLines ctx n ts slots,
      ∀ cols, contentColumns row = some cols →
        ∀ c ∈ cols, c.is_match = false := by
  intro ts n slots
  refine renderLines_forall ctx
    (fun row => ∀ cols, contentColumns row = some cols →
      ∀ c ∈ cols, c.is_match = false)
    (fun _ => True) (fun _ _ _ => trivial) (fun _ _ _ => trivial)
    (fun n row hrow => ?_)
    (fun n t slots2 _ =>
      contentRowFor_is_match_false_of_empty ctx n t slots2 hemp)
    ts n slots trivial
  intro cols hcols
  rw [(labelRowsFor_label ctx n row hrow).2.1] at hcols
  exact absurd hcols (by simp)

theorem renderLines_content_length (ctx : RenderCtx)
    (hemp : ¬ ctx.all_chunks.isEmpty = true) (hpos : 1 ≤ ctx.maxd) :
    ∀ ts n slots, slots.length = ctx.maxd →
      ∀ row ∈ renderLines ctx n ts slots,
        ∀ cols, contentColumns row = some cols → cols.length = ctx.maxd := by
  intro ts n slots hQ
  refine renderLines_forall ctx
    (fun row => ∀ cols, contentColumns row = some cols →
      cols.length = ctx.maxd)
    (fun sl => sl.length = ctx.maxd)
    (fun n sl h => by
      show (activateAt ctx.dm ctx.maxd n ctx.source_chunks ctx.first_line
        (expireBefore n sl)).length = ctx.maxd
      rw [activateAt_length, expireBefore_length]
      exact h)
    (fun n sl2 h => by
      show (nextSlots ctx n sl2).length = ctx.maxd
      rw [nextSlots_length]
      exact h)
    (fun n row hrow => ?_)
    (fun n t slots2 h =>
      contentRowFor_columns_length ctx n t slots2 hemp hpos h)
    ts n slots hQ
  intro cols hcols
  rw [(labelRowsFor_label ctx n row hrow).2.1] at hcols
  exact absurd hcols (by simp)

theorem renderLines_filter_content (ctx : RenderCtx)
    (hemp : ctx.all_chunks.isEmpty = true) :
    ∀ ts n slots, (renderLines ctx n ts slots).filter isContentLine =
      fallbackRows ctx.match_line n ts := by
  intro ts
  induction ts with
  | nil =>
    intro n slots
    rfl
  | cons t ts ih =>
    intro n slots
    rw [renderLines_cons, List.filter_append, renderLine_fst,
      List.filter_append]
    have h1 : (labelRowsFor ctx n).filter isContentLine = [] := by
      apply List.filter_eq_nil_iff.mpr
      intro row hrow
      rw [(labelRowsFor_label ctx n row hrow).2.2]
      simp
    rw [h1, contentRowFor_empty_eq ctx n t _ hemp]
    rw [renderLine_snd, ih (n + 1)]
    rfl

theorem mkRenderCtx_chunk_meta (match_line : Nat)
    (chunk_meta : Option IndexedChunkMeta) (all_chunks : List IndexedChunkMeta)
    (context_start context_end : Nat) :
    (mkRenderCtx match_line chunk_meta all_chunks context_start
      context_end).chunk_meta = chunk_meta := rfl

theorem mkRenderCtx_all_chunks (match_line : Nat)
    (chunk_meta : Option IndexedChunkMeta) (all_chunks : List IndexedChunkMeta)
    (context_start context_end : Nat) :
    (mkRenderCtx match_line chunk_meta all_chunks context_start
      context_end).all_chunks = all_chunks := rfl

theorem mkRenderCtx_match_line (match_line : Nat)
    (chunk_meta : Option IndexedChunkMeta) (all_chunks : List IndexedChunkMeta)
    (context_start context_end : Nat) :
    (mkRenderCtx match_line chunk_meta all_chunks context_start
      context_end).match_line = match_line := rfl

theorem mkRenderCtx_maxd (match_line : Nat)
    (chunk_meta : Option IndexedChunkMeta) (all_chunks : List IndexedChunkMeta)
    (context_start context_end : Nat) :
    (mkRenderCtx match_line chunk_meta all_chunks context_start
      context_end).maxd = calculate_max_depth (structuralChunks all_chunks) := rfl

theorem initialSlots_length (ctx : RenderCtx)
    (all_chunks : List IndexedChunkMeta) :
    (initialSlots ctx all_chunks).length = ctx.maxd := by
  unfold initialSlots
  rw [prepopulate_length, List.length_replicate]

theorem calculate_max_depth_pos (cs : List IndexedChunkMeta) :
    1 ≤ calculate_max_depth cs := by
  unfold calculate_max_depth
  omega

theorem collect_cond_iff (full_file_mode : Bool)
    (chunk_meta : Option IndexedChunkMeta)
    (all_chunks : List IndexedChunkMeta) :
    ((!full_file_mode && chunk_meta.isNone && !all_chunks.isEmpty) = true) ↔
      (full_file_mode = false ∧ chunk_meta = none ∧ all_chunks ≠ []) := by
  simp only [Bool.and_eq_true, Bool.not_eq_true', Option.isNone_iff_eq_none]
  constructor
  · rintro ⟨⟨h1, h2⟩, h3⟩
    refine ⟨h1, h2, ?_⟩
    intro he
    subst he
    simp at h3
  · rintro ⟨h1, h2, h3⟩
    refine ⟨⟨h1, h2⟩, ?_⟩
    cases all_chunks with
    | nil => exact absurd rfl h3
    | cons a l => rfl

theorem collect_eq_of_cond_true (lines : List String)
    (context_start context_end match_line : Nat)
    (chunk_meta : Option IndexedChunkMeta)
    (all_chunks : List IndexedChunkMeta) (full_file_mode : Bool)
    (h : (!full_file_mode && chunk_meta.isNone && !all_chunks.isEmpty) = true) :
    collect_chunk_display_lines lines context_start context_end match_line
        chunk_meta all_chunks full_file_mode =
      collectBody lines context_start context_end match_line chunk_meta
        all_chunks ++ [ChunkDisplayLine.Message theMessage] := by
  unfold collect_chunk_display_lines
  rw [if_pos h]

theorem collect_eq_of_cond_false (lines : List String)
    (context_start context_end match_line : Nat)
    (chunk_meta : Option IndexedChunkMeta)
    (all_chunks : List IndexedChunkMeta) (full_file_mode : Bool)
    (h : ¬ (!full_file_mode && chunk_meta.isNone && !all_chunks.isEmpty) = true) :
    collect_chunk_display_lines lines context_start context_end match_line
        chunk_meta all_chunks full_file_mode =
      collectBody lines context_start context_end match_line chunk_meta
        all_chunks := by
  unfold collect_chunk_display_lines
  rw [if_neg h]

theorem collectBody_no_message (lines : List String)
    (context_start context_end match_line : Nat)
    (chunk_meta : Option IndexedChunkMeta)
    (all_chunks : List IndexedChunkMeta) :
    ∀ row ∈ collectBody lines context_start context_end match_line chunk_meta
      all_chunks, isMessageLine row = false := by
  intro row hrow
  exact renderLines_no_message _ _ _ _ row hrow



/-! ### Max-depth helpers -/

theorem foldr_max_le (l : List Nat) : ∀ d ∈ l, d ≤ l.foldr max 0 := by
  induction l with
  | nil => simp
  | cons a l ih =>
    intro d hd
    rcases List.mem_cons.mp hd with rfl | hd'
    · simp only [List.foldr_cons]
      omega
    · have := ih d hd'
      simp only [List.foldr_cons]
      omega

theorem foldr_max_mem (l : List Nat) (h : l ≠ []) : l.foldr max 0 ∈ l := by
  induction l with
  | nil => exact absurd rfl h
  | cons a l ih =>
    cases l with
    | nil =>
      simp only [List.foldr_cons, List.foldr_nil]
      have : max a 0 = a := by omega
      rw [this]
      exact List.mem_cons_self a _
    | cons b l' =>
      have hmem := ih (by simp)
      simp only [List.foldr_cons] at hmem ⊢
      by_cases hab : a ≤ max b (List.foldr max 0 l')
      · have : max a (max b (List.foldr max 0 l')) = max b (List.foldr max 0 l') := by
          omega
        rw [this]
        exact List.mem_cons_of_mem a hmem
      · have : max a (max b (List.foldr max 0 l')) = a := by omega
        rw [this]
        exact List.mem_cons_self a _

/-! ### Claim theorems -/

/-- C1, counterexample: the claim as stated fails on partially-overlapping
spans.  For the chunk set {(1,5), (3,10)}, chunk (3,10) has no enclosing
ancestor at all (zero chunks of the set enclose it), yet the engine assigns
it depth 1, not 0, because (1,5) is still open on the sweep stack when
(3,10) is processed. -/
theorem claim1_depth_assignment_cex :
    depthGet (calculate_chunk_depths [mkChunk 1 5, mkChunk 3 10]) (3, 10) =
      some 1 ∧
    [mkChunk 1 5, mkChunk 3 10].countP
      (fun a => decide (spanEncloses a.span (Span.mk 3 10))) = 0 := by
  decide

/-- C1 (amended): for every chunk set with pairwise-distinct spans that is
laminar (every two spans are nested or disjoint up to a shared boundary
line), a chunk with no enclosing ancestor receives depth 0 and a chunk
enclosed by exactly `k` ancestors whose boundaries do not merely touch it
receives depth `k` — the recorded depth equals the count of properly
enclosing, non-touching ancestors; in particular for the outer span (1,10)
with inner spans (2,5) and (6,9) the assigned depths are 0, 1 and 1. -/
theorem claim1_depth_assignment :
    (∀ cs : List IndexedChunkMeta,
      (∀ c ∈ cs, c.span.line_start ≤ c.span.line_end) →
      cs.Pairwise (fun a b => a.span ≠ b.span) →
      cs.Pairwise (fun a b => laminarPair a.span b.span) →
      ∀ c ∈ cs,
        depthGet (calculate_chunk_depths cs)
            (c.span.line_start, c.span.line_end) =
          some (cs.countP (fun a => decide (spanEncloses a.span c.span))))
    ∧ depthGet (calculate_chunk_depths
        [mkChunk 1 10, mkChunk 2 5, mkChunk 6 9]) (1, 10) = some 0
    ∧ depthGet (calculate_chunk_depths
        [mkChunk 1 10, mkChunk 2 5, mkChunk 6 9]) (2, 5) = some 1
    ∧ depthGet (calculate_chunk_depths
        [mkChunk 1 10, mkChunk 2 5, mkChunk 6 9]) (6, 9) = some 1 :=
  ⟨depth_count_of_laminar, by decide, by decide, by decide⟩

/-- C1 witness: the amended theorem applied to the concrete sibling example
at the inner chunk (2,5). -/
theorem claim1_depth_assignment_witness :
    depthGet (calculate_chunk_depths
        [mkChunk 1 10, mkChunk 2 5, mkChunk 6 9]) (2, 5) =
      some ([mkChunk 1 10, mkChunk 2 5, mkChunk 6 9].countP
        (fun a => decide (spanEncloses a.span (mkChunk 2 5).span))) :=
  claim1_depth_assignment.1 [mkChunk 1 10, mkChunk 2 5, mkChunk 6 9]
    (by decide) (by decide) (by decide) (mkChunk 2 5) (by decide)

/-- C2: a chunk whose span ends exactly where another chunk starts never
counts towards that chunk's depth: the recorded depth of the `i`-th chunk in
sorted order counts exactly the earlier-sorted chunks whose `line_end` is
strictly greater than the chunk's `line_start` (so a chunk with
`line_end = line_start` is excluded); concretely, for A = (1,5) and
B = (5,10), B is assigned depth 0. -/
theorem claim2_boundary_rule :
    (∀ (cs : List IndexedChunkMeta) (i : Nat),
      (depthInsertions cs)[i]? = ((sortChunks cs)[i]?).map (fun c =>
        ((c.span.line_start, c.span.line_end),
          (((sortChunks cs).take i).filter
            (fun a => decide (c.span.line_start < a.span.line_end))).length)))
    ∧ (∀ a c : IndexedChunkMeta, a.span.line_end = c.span.line_start →
        decide (c.span.line_start < a.span.line_end) = false)
    ∧ depthGet (calculate_chunk_depths [mkChunk 1 5, mkChunk 5 10]) (5, 10) =
        some 0 := by
  refine ⟨depthInsertions_getElem?, ?_, by decide⟩
  intro a c h
  simp [h]

/-- C2 witness: the exclusion rule applied at A = (1,5), B = (5,10). -/
theorem claim2_boundary_rule_witness :
    decide ((mkChunk 5 10).span.line_start < (mkChunk 1 5).span.line_end) =
      false :=
  claim2_boundary_rule.2.1 (mkChunk 1 5) (mkChunk 5 10) rfl

/-- C3: `calculate_max_depth` is one more than the maximum depth recorded in
the depth map (every recorded depth is strictly below it, and when the map
is non-empty some recorded depth equals it minus one), it is never 0, and on
the empty chunk set it is exactly 1. -/
theorem claim3_max_depth :
    (∀ cs : List IndexedChunkMeta,
      (∀ d ∈ (calculate_chunk_depths cs).map (·.2),
        d < calculate_max_depth cs)
      ∧ ((calculate_chunk_depths cs).map (·.2) ≠ [] →
          ∃ d ∈ (calculate_chunk_depths cs).map (·.2),
            calculate_max_depth cs = d + 1)
      ∧ 1 ≤ calculate_max_depth cs)
    ∧ calculate_max_depth [] = 1 := by
  constructor
  · intro cs
    refine ⟨?_, ?_, calculate_max_depth_pos cs⟩
    · intro d hd
      have := foldr_max_le _ d hd
      unfold calculate_max_depth
      omega
    · intro hne
      refine ⟨((calculate_chunk_depths cs).map (·.2)).foldr Nat.max 0,
        foldr_max_mem _ hne, ?_⟩
      rfl
  · rfl

/-- C3 witness: applied at the singleton chunk set {(1,10)} and at the empty
set. -/
theorem claim3_max_depth_witness :
    0 < calculate_max_depth [mkChunk 1 10] ∧ calculate_max_depth [] = 1 :=
  ⟨(claim3_max_depth.1 [mkChunk 1 10]).1 0 (by decide), claim3_max_depth.2⟩

/-- C4: the depth map has pairwise-distinct keys, a key is present exactly
when some chunk of the input has that span, the insertion sequence has one
entry per chunk in sorted processing order, the stored value for a key is
the one recorded by the last insertion with that key (last writer wins), and
for the concrete duplicate set {(1,10), (1,10)} the map is the single entry
((1,10), 1) — the second copy's depth. -/
theorem claim4_duplicate_collapse :
    (∀ cs : List IndexedChunkMeta,
      ((calculate_chunk_depths cs).map (·.1)).Nodup)
    ∧ (∀ (cs : List IndexedChunkMeta) (k : Nat × Nat),
        k ∈ (calculate_chunk_depths cs).map (·.1) ↔
          ∃ c ∈ cs, (c.span.line_start, c.span.line_end) = k)
    ∧ (∀ cs : List IndexedChunkMeta,
        (depthInsertions cs).map (·.1) =
          (sortChunks cs).map (fun m => (m.span.line_start, m.span.line_end)))
    ∧ (∀ (cs : List IndexedChunkMeta) (k : Nat × Nat),
        depthGet (calculate_chunk_depths cs) k =
          (((depthInsertions cs).filter (fun p => p.1 == k)).getLast?).map
            (·.2))
    ∧ calculate_chunk_depths [mkChunk 1 10, mkChunk 1 10] = [((1, 10), 1)] := by
  refine ⟨?_, ?_, ?_, ?_, by decide⟩
  · intro cs
    exact calculate_chunk_depths_keys_nodup_aux _ [] (by simp)
  · intro cs k
    unfold calculate_chunk_depths
    rw [foldl_keys_mem]
    unfold depthInsertions
    rw [sweepInsertions_keys]
    constructor
    · rintro (h | h)
      · rcases List.mem_map.mp h with ⟨c, hc, he⟩
        exact ⟨c, (sortChunks_perm cs).mem_iff.mp hc, he⟩
      · simp at h
    · rintro ⟨c, hc, he⟩
      exact Or.inl (List.mem_map.mpr ⟨c, (sortChunks_perm cs).mem_iff.mpr hc, he⟩)
  · intro cs
    unfold depthInsertions
    exact sweepInsertions_keys _ _
  · intro cs k
    unfold calculate_chunk_depths
    rw [depthGet_foldl]
    cases h : ((depthInsertions cs).filter (fun p => p.1 == k)).getLast? with
    | none => simp [depthGet]
    | some p => simp

/-- C4 witness: the key-membership characterization applied at the duplicate
pair. -/
theorem claim4_duplicate_collapse_witness :
    (1, 10) ∈ (calculate_chunk_depths
      [mkChunk 1 10, mkChunk 1 10]).map (·.1) :=
  (claim4_duplicate_collapse.2.1 [mkChunk 1 10, mkChunk 1 10] (1, 10)).mpr
    ⟨mkChunk 1 10, List.mem_cons_self _ _, rfl⟩



theorem collect_mem (lines : List String)
    (context_start context_end match_line : Nat)
    (chunk_meta : Option IndexedChunkMeta)
    (all_chunks : List IndexedChunkMeta) (full_file_mode : Bool)
    (row : ChunkDisplayLine)
    (h : row ∈ collect_chunk_display_lines lines context_start context_end
      match_line chunk_meta all_chunks full_file_mode) :
    row ∈ collectBody lines context_start context_end match_line chunk_meta
      all_chunks ∨ row = ChunkDisplayLine.Message theMessage := by
  by_cases hcond : (!full_file_mode && chunk_meta.isNone &&
      !all_chunks.isEmpty) = true
  · rw [collect_eq_of_cond_true _ _ _ _ _ _ _ hcond] at h
    rcases List.mem_append.mp h with h' | h'
    · exact Or.inl h'
    · exact Or.inr (List.mem_singleton.mp h')
  · rw [collect_eq_of_cond_false _ _ _ _ _ _ _ hcond] at h
    exact Or.inl h

/-- C5: a rail column's `is_match` is true exactly when its slot is occupied
by a chunk whose span equals the matched chunk's span on both endpoints
(column `i` renders slot `i`); with no matched chunk every column of every
`Content` row is false; the text-chunk overlay never changes the `is_match`
sequence of a non-empty column list; and with an empty chunk set every
column of every `Content` row is false. -/
theorem claim5_is_match_exactness :
    (∀ (mc : IndexedChunkMeta) (n : Nat) (slot : Option IndexedChunkMeta),
      (columnFor (some mc) n slot).is_match = true ↔
        ∃ m, slot = some m ∧
          m.span.line_start = mc.span.line_start ∧
          m.span.line_end = mc.span.line_end)
    ∧ (∀ (cm : Option IndexedChunkMeta) (n : Nat)
        (slots : List (Option IndexedChunkMeta)) (i : Nat),
        (buildColumns cm n slots)[i]? = (slots[i]?).map (columnFor cm n))
    ∧ (∀ (n : Nat) (slot : Option IndexedChunkMeta),
        (columnFor none n slot).is_match = false)
    ∧ (∀ (hs : Bool) (tc : Option IndexedChunkMeta) (n : Nat)
        (cols : List ChunkColumnChar), cols ≠ [] →
        (applyTextOverlay hs tc n cols).map (·.is_match) =
          cols.map (·.is_match))
    ∧ (∀ (lines : List String)
        (context_start context_end match_line : Nat)
        (all_chunks : List IndexedChunkMeta) (full_file_mode : Bool),
        ∀ row ∈ collect_chunk_display_lines lines context_start context_end
          match_line none all_chunks full_file_mode,
          ∀ cols, contentColumns row = some cols →
            ∀ c ∈ cols, c.is_match = false)
    ∧ (∀ (lines : List String)
        (context_start context_end match_line : Nat)
        (chunk_meta : Option IndexedChunkMeta) (full_file_mode : Bool),
        ∀ row ∈ collect_chunk_display_lines lines context_start context_end
          match_line chunk_meta [] full_file_mode,
          ∀ cols, contentColumns row = some cols →
            ∀ c ∈ cols, c.is_match = false) := by
  refine ⟨?_, ?_, columnFor_none_is_match, applyTextOverlay_is_match_map,
    ?_, ?_⟩
  · intro mc n slot
    cases slot with
    | none =>
      constructor
      · intro h
        exact absurd h (by simp [columnFor])
      · rintro ⟨m, hm, _⟩
        exact absurd hm (by simp)
    | some m =>
      unfold columnFor
      simp only [Bool.and_eq_true, beq_iff_eq]
      constructor
      · rintro ⟨h1, h2⟩
        exact ⟨m, rfl, h1.symm, h2.symm⟩
      · rintro ⟨m', hm, h1, h2⟩
        obtain rfl : m = m' := by injection hm
        exact ⟨h1.symm, h2.symm⟩
  · intro cm n slots i
    unfold buildColumns
    simp
  · intro lines context_start context_end match_line all_chunks full_file_mode
      row hrow cols hcols c hc
    rcases collect_mem _ _ _ _ _ _ _ _ hrow with h' | h'
    · exact renderLines_is_match_false_of_none _ rfl _ _ _ row h' cols hcols
        c hc
    · subst h'
      exact absurd hcols (by simp [contentColumns])
  · intro lines context_start context_end match_line chunk_meta full_file_mode
      row hrow cols hcols c hc
    rcases collect_mem _ _ _ _ _ _ _ _ hrow with h' | h'
    · exact renderLines_is_match_false_of_empty
        (mkRenderCtx match_line chunk_meta [] context_start context_end) rfl
        _ _ _ row h' cols hcols c hc
    · subst h'
      exact absurd hcols (by simp [contentColumns])

/-- C5 witness: the per-column rule applied at a concrete occupied slot with
an exactly matching span, and at a mismatching one. -/
theorem claim5_is_match_exactness_witness :
    (columnFor (some (mkChunk 2 5)) 3 (some (mkChunk 2 5))).is_match = true :=
  (claim5_is_match_exactness.1 (mkChunk 2 5) 3 (some (mkChunk 2 5))).mpr
    ⟨mkChunk 2 5, rfl, rfl, rfl⟩

/-- C6: the trailing `Message` row is appended exactly when
`full_file_mode` is false, no matched chunk was supplied, and the chunk set
is non-empty; when appended it is the final element and its text is the
fixed message; otherwise no `Message` row appears anywhere in the output. -/
theorem claim6_trailing_message :
    ∀ (lines : List String) (context_start context_end match_line : Nat)
      (chunk_meta : Option IndexedChunkMeta)
      (all_chunks : List IndexedChunkMeta) (full_file_mode : Bool),
      ((full_file_mode = false ∧ chunk_meta = none ∧ all_chunks ≠ []) →
        (collect_chunk_display_lines lines context_start context_end
          match_line chunk_meta all_chunks full_file_mode).getLast? =
            some (ChunkDisplayLine.Message theMessage)
        ∧ ∀ row ∈ (collect_chunk_display_lines lines context_start context_end
            match_line chunk_meta all_chunks full_file_mode).dropLast,
            isMessageLine row = false)
      ∧ (¬ (full_file_mode = false ∧ chunk_meta = none ∧ all_chunks ≠ []) →
        ∀ row ∈ collect_chunk_display_lines lines context_start context_end
          match_line chunk_meta all_chunks full_file_mode,
          isMessageLine row = false) := by
  intro lines context_start context_end match_line chunk_meta all_chunks
    full_file_mode
  constructor
  · intro hcond
    have hb := (collect_cond_iff full_file_mode chunk_meta all_chunks).mpr hcond
    rw [collect_eq_of_cond_true _ _ _ _ _ _ _ hb]
    constructor
    · simp
    · intro row hrow
      rw [List.dropLast_concat] at hrow
      exact collectBody_no_message _ _ _ _ _ _ row hrow
  · intro hncond
    have hb : ¬ (!full_file_mode && chunk_meta.isNone &&
        !all_chunks.isEmpty) = true := fun h =>
      hncond ((collect_cond_iff full_file_mode chunk_meta all_chunks).mp h)
    rw [collect_eq_of_cond_false _ _ _ _ _ _ _ hb]
    exact collectBody_no_message _ _ _ _ _ _

/-- C6 witness: with a non-empty chunk set, no matched chunk and
`full_file_mode = false`, the final element is the fixed message. -/
theorem claim6_trailing_message_witness :
    (collect_chunk_display_lines ["a"] 0 1 1 none [mkChunk 1 1] false).getLast? =
      some (ChunkDisplayLine.Message theMessage) :=
  ((claim6_trailing_message ["a"] 0 1 1 none [mkChunk 1 1] false).1
    ⟨rfl, rfl, by decide⟩).1

/-- C7: with an empty chunk set, the `Content` rows of the output are
exactly the fallback rows: a two-character boundary marker column pair and
`has_any_chunk = true` on lines whose trimmed text starts with one of the
definition keywords, and no columns with `has_any_chunk = false` on every
other line. -/
theorem claim7_no_chunk_fallback :
    ∀ (lines : List String) (context_start context_end match_line : Nat)
      (chunk_meta : Option IndexedChunkMeta) (full_file_mode : Bool),
      (collect_chunk_display_lines lines context_start context_end match_line
        chunk_meta [] full_file_mode).filter isContentLine =
        fallbackRows match_line (context_start + 1)
          ((lines.drop context_start).take (context_end - context_start)) := by
  intro lines context_start context_end match_line chunk_meta full_file_mode
  rw [collect_eq_of_cond_false _ _ _ _ _ _ _ (by simp)]
  unfold collectBody
  exact renderLines_filter_content
    (mkRenderCtx match_line chunk_meta [] context_start context_end) rfl _ _ _



/-- C8, counterexample: the claim as stated fails on the no-chunk fallback
path.  With an empty chunk set, `max_depth` is 1 but the fallback emits
`Content` rows with 0 columns (non-boundary lines) or 2 columns (boundary
lines). -/
theorem claim8_fixed_rail_width_cex :
    ¬ (∀ row ∈ collect_chunk_display_lines ["plain"] 0 1 1 none [] false,
        ∀ cols, contentColumns row = some cols →
          cols.length = calculate_max_depth (structuralChunks [])) := by
  decide

/-- C8 (amended): on every render pass with a non-empty chunk set, every
emitted `Content` row carries exactly `max_depth` columns, where `max_depth`
is computed from the structural subset of the chunk set for that pass. -/
theorem claim8_fixed_rail_width :
    ∀ (lines : List String) (context_start context_end match_line : Nat)
      (chunk_meta : Option IndexedChunkMeta)
      (all_chunks : List IndexedChunkMeta) (full_file_mode : Bool),
      all_chunks ≠ [] →
      ∀ row ∈ collect_chunk_display_lines lines context_start context_end
        match_line chunk_meta all_chunks full_file_mode,
        ∀ cols, contentColumns row = some cols →
          cols.length = calculate_max_depth (structuralChunks all_chunks) := by
  intro lines context_start context_end match_line chunk_meta all_chunks
    full_file_mode hne row hrow cols hcols
  rcases collect_mem _ _ _ _ _ _ _ _ hrow with h' | h'
  · have hemp : ¬ (mkRenderCtx match_line chunk_meta all_chunks context_start
        context_end).all_chunks.isEmpty = true := by
      rw [mkRenderCtx_all_chunks]
      cases all_chunks with
      | nil => exact absurd rfl hne
      | cons a l => simp
    exact renderLines_content_length
      (mkRenderCtx match_line chunk_meta all_chunks context_start context_end)
      hemp (calculate_max_depth_pos _) _ _ _
      (initialSlots_length _ _) row h' cols hcols
  · subst h'
    exact absurd hcols (by simp [contentColumns])

/-- C8 witness: on the one-chunk pass over a single line, the emitted
content row has exactly `max_depth = 1` columns. -/
theorem claim8_fixed_rail_width_witness :
    ([ChunkColumnChar.mk '─' false] : List ChunkColumnChar).length =
      calculate_max_depth (structuralChunks [mkChunk 1 1]) :=
  claim8_fixed_rail_width ["a"] 0 1 1 none [mkChunk 1 1] false (by decide)
    (ChunkDisplayLine.Content [ChunkColumnChar.mk '─' false] 1 "a" true false
      true)
    (by decide) [ChunkColumnChar.mk '─' false] rfl

/-- C9, counterexample: the adapter copies `breadcrumb` verbatim, so a chunk
whose engine-side breadcrumb is absent yields a `ChunkMeta` whose
`breadcrumb` field is absent — not every optional field is populated. -/
theorem claim9_adapter_totality_cex :
    ((convert_chunks_to_meta
        [Chunk.mk (Span.mk 1 2) ChunkType.Function
          (ChunkMetadata.mk none [] 10 3 [] [])]).all
      (fun m => m.chunk_type.isSome && m.breadcrumb.isSome &&
        m.estimated_tokens.isSome && m.byte_length.isSome &&
        m.leading_trivia.isSome && m.trailing_trivia.isSome)) = false := by
  decide

/-- C9 (amended): the adapter maps each engine chunk-type enumerant to its
display string, copies span, breadcrumb, ancestry, byte length, estimated
tokens and both trivia sequences verbatim, and every optional field of the
result except `breadcrumb` is always populated; `breadcrumb` is populated
exactly when the input's breadcrumb is present (it is copied verbatim). -/
theorem claim9_adapter_totality :
    (chunkTypeName ChunkType.Function = "function"
      ∧ chunkTypeName ChunkType.Class = "class"
      ∧ chunkTypeName ChunkType.Method = "method"
      ∧ chunkTypeName ChunkType.Module = "module"
      ∧ chunkTypeName ChunkType.TypeSpec = "typespec"
      ∧ chunkTypeName ChunkType.Documentation = "documentation"
      ∧ chunkTypeName ChunkType.Text = "text")
    ∧ (∀ (chunks : List Chunk) (i : Nat) (c : Chunk), chunks[i]? = some c →
        (convert_chunks_to_meta chunks)[i]? =
          some (IndexedChunkMeta.mk c.span (some (chunkTypeName c.chunk_type))
            c.metadata.breadcrumb c.metadata.ancestry
            (some c.metadata.estimated_tokens) (some c.metadata.byte_length)
            (some c.metadata.leading_trivia)
            (some c.metadata.trailing_trivia)))
    ∧ (∀ chunks : List Chunk, ∀ m ∈ convert_chunks_to_meta chunks,
        m.chunk_type.isSome = true ∧ m.estimated_tokens.isSome = true ∧
        m.byte_length.isSome = true ∧ m.leading_trivia.isSome = true ∧
        m.trailing_trivia.isSome = true)
    ∧ (∀ (chunks : List Chunk) (i : Nat) (c : Chunk), chunks[i]? = some c →
        ((convert_chunks_to_meta chunks)[i]?).map (·.breadcrumb) =
          some c.metadata.breadcrumb) := by
  refine ⟨⟨rfl, rfl, rfl, rfl, rfl, rfl, rfl⟩, ?_, ?_, ?_⟩
  · intro chunks i c h
    unfold convert_chunks_to_meta
    simp [h]
  · intro chunks m hm
    unfold convert_chunks_to_meta at hm
    rcases List.mem_map.mp hm with ⟨c, _, he⟩
    subst he
    exact ⟨rfl, rfl, rfl, rfl, rfl⟩
  · intro chunks i c h
    unfold convert_chunks_to_meta
    simp [h]

/-- C9 witness: the positional characterization applied to a concrete chunk
with a present breadcrumb. -/
theorem claim9_adapter_totality_witness :
    (convert_chunks_to_meta
      [Chunk.mk (Span.mk 1 2) ChunkType.Class
        (ChunkMetadata.mk (some "A::f") ["A"] 10 3 [] [])])[0]? =
      some (IndexedChunkMeta.mk (Span.mk 1 2) (some "class") (some "A::f")
        ["A"] (some 3) (some 10) (some []) (some [])) :=
  claim9_adapter_totality.2.1
    [Chunk.mk (Span.mk 1 2) ChunkType.Class
      (ChunkMetadata.mk (some "A::f") ["A"] 10 3 [] [])] 0
    (Chunk.mk (Span.mk 1 2) ChunkType.Class
      (ChunkMetadata.mk (some "A::f") ["A"] 10 3 [] [])) rfl

/-- C10: the rail-occupancy invariant.  Pre-population fills slots only with
structural chunks that started strictly before and are still open at the
first visible line; and for every line `n`, if every occupant entering the
line started before `n` and source chunks have valid spans, then at the
moment the columns are built (after the expire and activate steps) every
occupant's span contains `n` (and the occupant came from the incoming slots
or the source set), and after the post-expire step every remaining occupant
started before `n + 1`, re-establishing the invariant for the next line. -/
theorem claim10_rail_occupancy :
    (∀ (structural : List IndexedChunkMeta) (dm : List ((Nat × Nat) × Nat))
      (maxd first_line : Nat) (m : IndexedChunkMeta),
      some m ∈ prepopulate structural dm maxd first_line
        (List.replicate maxd none) →
        m ∈ structural ∧ m.span.line_start < first_line ∧
          first_line ≤ m.span.line_end)
    ∧ (∀ (dm : List ((Nat × Nat) × Nat)) (maxd n : Nat)
        (source : List IndexedChunkMeta) (first_line : Nat)
        (slots : List (Option IndexedChunkMeta)),
        (∀ m : IndexedChunkMeta, some m ∈ slots → m.span.line_start < n) →
        (∀ c ∈ source, c.span.line_start ≤ c.span.line_end) →
        (∀ m : IndexedChunkMeta,
          some m ∈ activateAt dm maxd n source first_line
            (expireBefore n slots) →
          (m.span.line_start ≤ n ∧ n ≤ m.span.line_end) ∧
            (some m ∈ slots ∨ m ∈ source))
        ∧ (∀ m : IndexedChunkMeta,
          some m ∈ postExpire n (activateAt dm maxd n source first_line
            (expireBefore n slots)) → m.span.line_start < n + 1)) := by
  constructor
  · intro structural dm maxd first_line m h
    rcases prepopulate_mem _ _ _ _ _ _ h with h' | h'
    · have := List.eq_of_mem_replicate h'
      exact absurd this (by simp)
    · exact h'
  · intro dm maxd n source first_line slots hpre hval
    have hmain : ∀ m : IndexedChunkMeta,
        some m ∈ activateAt dm maxd n source first_line
          (expireBefore n slots) →
        (m.span.line_start ≤ n ∧ n ≤ m.span.line_end) ∧
          (some m ∈ slots ∨ m ∈ source) := by
      intro m hm
      rcases activateAt_mem _ _ _ _ _ _ _ hm with h' | h'
      · obtain ⟨hs, hle⟩ := expireBefore_mem n slots m h'
        have := hpre m hs
        exact ⟨⟨by omega, hle⟩, Or.inl hs⟩
      · obtain ⟨hsrc, hstart⟩ := h'
        have := hval m hsrc
        exact ⟨⟨by omega, by omega⟩, Or.inr hsrc⟩
    refine ⟨hmain, ?_⟩
    intro m hm
    obtain ⟨hin, _⟩ := postExpire_mem _ _ _ hm
    have := (hmain m hin).1.1
    omega

/-- C10 witness: the invariant applied at line 2 to a slot state holding the
open chunk (1,3): its span contains line 2. -/
theorem claim10_rail_occupancy_witness :
    ((mkChunk 1 3).span.line_start ≤ 2 ∧ 2 ≤ (mkChunk 1 3).span.line_end) ∧
      (some (mkChunk 1 3) ∈ [some (mkChunk 1 3)] ∨
        mkChunk 1 3 ∈ ([] : List IndexedChunkMeta)) :=
  (claim10_rail_occupancy.2 [] 1 2 [] 1 [some (mkChunk 1 3)]
    (by
      intro m hm
      rw [List.mem_singleton] at hm
      obtain rfl : m = mkChunk 1 3 := by injection hm
      decide)
    (by
      intro c hc
      exact absurd hc (by simp))).1 (mkChunk 1 3) (by decide)


end Ck
